import Mathlib

/-!
Verification development for the MediaSorter script (mediasorter.py).

The Python source is shallowly embedded below.  Strings are modelled as
`List Char` where index arithmetic matters, `String` elsewhere.  The
regular-expression patterns of the script are embedded as abstract syntax
trees interpreted by a small backtracking matcher that follows Python's
`re` semantics for the constructs these patterns use (leftmost search,
ordered alternation, greedy and lazy counted repetition of one-character
classes, anchors, fixed negative look-around).  All definitions are
executable so concrete runs of the embedded program can be settled by
kernel evaluation.
-/

namespace MediaSorter

/-! ## Character classes (Python 2 `re`, ASCII semantics) -/

/-- `[_\W]` of the source patterns: `_` or a non-word character.  Since the
word class is `[a-zA-Z0-9_]`, this is exactly the non-alphanumeric chars. -/
def isSepCh (c : Char) : Bool := !c.isAlphanum

/-- `\w` : ASCII word character. -/
def isWordCh (c : Char) : Bool := c.isAlphanum || c = '_'

/-- `\d` : ASCII digit. -/
def isDigitCh (c : Char) : Bool := c.isDigit

/-- `.` : any character except newline. -/
def isAnyCh (c : Char) : Bool := c ≠ '\n'

/-! ## List-of-characters utilities -/

def charAt (s : List Char) (i : Nat) : Char := s.getD i (Char.ofNat 0)

/-- The slice `s[j:k]` (Python semantics for `0 ≤ j ≤ k`). -/
def slice (s : List Char) (j k : Nat) : List Char := (s.take k).drop j

def startsWithL : List Char → List Char → Bool
  | _, [] => true
  | [], _ :: _ => false
  | c :: cs, p :: ps => c = p && startsWithL cs ps

/-- Python `pat in hay` (substring containment). -/
def containsL : List Char → List Char → Bool
  | [], pat => pat.isEmpty
  | c :: cs, pat => startsWithL (c :: cs) pat || containsL cs pat

/-- Python `hay.find(pat)` returning `none` for `-1`. -/
def findSub : List Char → List Char → Option Nat
  | [], pat => if pat.isEmpty then some 0 else none
  | c :: cs, pat =>
    if startsWithL (c :: cs) pat then some 0
    else (findSub cs pat).map (· + 1)

/-- Python `str.replace(old, new)` (all non-overlapping, left to right);
`old` is assumed non-empty by every call site.  Structural recursion on a
fuel bound of one step per character so the kernel can evaluate it. -/
def replaceAllGo (old new : List Char) : Nat → List Char → List Char
  | 0, s => s
  | fuel + 1, s =>
    match s with
    | [] => []
    | c :: cs =>
      if !old.isEmpty && startsWithL (c :: cs) old then
        new ++ replaceAllGo old new fuel (cs.drop (old.length - 1))
      else
        c :: replaceAllGo old new fuel cs

def replaceAllL (s old new : List Char) : List Char :=
  replaceAllGo old new (s.length + 1) s

def countCharL (s : List Char) (c : Char) : Nat := s.countP (· = c)

/-! ## Python `os.path` and `str` helpers -/

def strStartsWith (s p : String) : Bool := startsWithL s.data p.data

def strEndsWith (s p : String) : Bool := startsWithL s.data.reverse p.data.reverse

/-- `os.path.join(a, b)` (posixpath, two arguments). -/
def pjoin (a b : String) : String :=
  if strStartsWith b "/" then b
  else if a = "" || strEndsWith a "/" then a ++ b
  else a ++ "/" ++ b

/-- `os.path.splitext(p)` for names without a directory separator:
split at the last dot unless every character before it is a dot. -/
def splitextL (s : List Char) : List Char × List Char :=
  match findLastDot s 0 none with
  | some i => if (slice s 0 i).all (· = '.') then (s, []) else (s.take i, s.drop i)
  | none => (s, [])
where
  findLastDot : List Char → Nat → Option Nat → Option Nat
    | [], _, acc => acc
    | c :: cs, i, acc => findLastDot cs (i + 1) (if c = '.' then some i else acc)

/-- Python `str.strip('.')`: remove leading and trailing dots. -/
def stripDots (s : List Char) : List Char :=
  ((s.dropWhile (· = '.')).reverse.dropWhile (· = '.')).reverse

def lowerL (s : List Char) : List Char := s.map Char.toLower

/-- Python `str.rsplit(sep, 1)` for a one-character separator, as used with
`"/"`; `none` models the ValueError of unpacking a list of length one. -/
def rsplitOnce (s : List Char) (sep : Char) : Option (List Char × List Char) :=
  match go s 0 none with
  | some i => some (s.take i, s.drop (i + 1))
  | none => none
where
  go : List Char → Nat → Option Nat → Option Nat
    | [], _, acc => acc
    | c :: cs, i, acc => go cs (i + 1) (if c = sep then some i else acc)

/-- Python 2 `str.strip()` whitespace (`string.whitespace` plus the three
file/group/record separators counted as space by `isspace`). -/
def isPyWs (c : Char) : Bool :=
  c = ' ' || c = '\t' || c = '\n' || c = '\r' || c = Char.ofNat 11 || c = Char.ofNat 12 ||
  c = Char.ofNat 28 || c = Char.ofNat 29 || c = Char.ofNat 30 || c = Char.ofNat 31

/-- Python `str.strip()`: drop whitespace from both ends. -/
def stripWs (s : List Char) : List Char :=
  ((s.dropWhile isPyWs).reverse.dropWhile isPyWs).reverse

/-- Python `str.translate(None, del)`: delete every character in `del`. -/
def translateDel (s del : List Char) : List Char := s.filter (fun c => !del.contains c)

/-! ## The regex engine

An AST whose repetition operators quantify a single character class, which
covers every pattern of the source.  `ends r s i` returns all positions at
which `r` can stop matching when started at `i`, in Python's backtracking
preference order (first entry = the alternative Python commits to first).
-/

inductive RE where
  | eps : RE
  | cls : (Char → Bool) → RE
  | rep : (Char → Bool) → Nat → Option Nat → Bool → RE
  | seq : RE → RE → RE
  | alt2 : RE → RE → RE
  | bol : RE
  | eol : RE
  | nla : List (Char → Bool) → RE
  | nlb : List (Char → Bool) → RE

/-- Length of the maximal run of class-`p` characters starting at `i`. -/
def clsRun (p : Char → Bool) (s : List Char) (i : Nat) : Nat :=
  ((s.drop i).takeWhile p).length

/-- Does the fixed class sequence `cs` match fully at position `i`? -/
def lookMatch : List (Char → Bool) → List Char → Nat → Bool
  | [], _, _ => true
  | p :: ps, s, i => decide (i < s.length) && p (charAt s i) && lookMatch ps s (i + 1)

def ends : RE → List Char → Nat → List Nat
  | .eps, _, i => [i]
  | .cls p, s, i =>
    if i < s.length && p (charAt s i) then [i + 1] else []
  | .rep p mn mx g, s, i =>
    let run := clsRun p s i
    let hi := match mx with | none => run | some m => Nat.min run m
    if hi < mn then []
    else if g then (List.range (hi + 1 - mn)).map (fun t => i + hi - t)
    else (List.range (hi + 1 - mn)).map (fun t => i + mn + t)
  | .seq a b, s, i => (ends a s i).foldr (fun j acc => ends b s j ++ acc) []
  | .alt2 a b, s, i => ends a s i ++ ends b s i
  | .bol, _, i => if i = 0 then [i] else []
  | .eol, s, i =>
    if i = s.length then [i]
    else if i + 1 = s.length && charAt s i = '\n' then [i] else []
  | .nla cs, s, i => if lookMatch cs s i then [] else [i]
  | .nlb cs, s, i =>
    if cs.length ≤ i && lookMatch cs s (i - cs.length) then [] else [i]

/-- n-ary ordered alternation. -/
def altL : List RE → RE
  | [] => .cls (fun _ => false)
  | [r] => r
  | r :: rs => .alt2 r (altL rs)

def seqL : List RE → RE
  | [] => .eps
  | [r] => r
  | r :: rs => .seq r (seqL rs)

/-- Case-insensitive literal (the source compiles with `re.I`). -/
def litI (w : String) : RE := seqL (w.data.map (fun c => RE.cls (fun x => x.toLower = c.toLower)))

/-- Case-sensitive literal. -/
def lit (w : String) : RE := seqL (w.data.map (fun c => RE.cls (· = c)))

def opt (r : RE) : RE := .alt2 r .eps

/-- A compiled pattern split around its single `(?P<val>...)` group. -/
structure Pat where
  pre : RE
  val : RE
  post : RE

structure MatchInfo where
  ms : Nat   -- match start
  vs : Nat   -- group 'val' start
  ve : Nat   -- group 'val' end
  me : Nat   -- match end
deriving Repr, DecidableEq

def firstSome : List α → (α → Option β) → Option β
  | [], _ => none
  | a :: as, f => match f a with | some b => some b | none => firstSome as f

/-- Try to match `P` anchored at position `i` (Python backtracking order:
the first combination of pre/val/post alternatives that succeeds). -/
def matchAt (P : Pat) (s : List Char) (i : Nat) : Option MatchInfo :=
  firstSome (ends P.pre s i) (fun j =>
    firstSome (ends P.val s j) (fun k =>
      (ends P.post s k).head?.map (fun l => ⟨i, j, k, l⟩)))

def findFrom (P : Pat) (s : List Char) : Nat → Nat → List MatchInfo
  | 0, _ => []
  | fuel + 1, i =>
    if i > s.length then []
    else
      match matchAt P s i with
      | some m => m :: findFrom P s fuel (if m.me > i then m.me else i + 1)
      | none => findFrom P s fuel (i + 1)

/-- Python `re.finditer`: leftmost, non-overlapping matches. -/
def finditer (P : Pat) (s : List Char) : List MatchInfo :=
  findFrom P s (s.length + 2) 0

/-- Replace each span `[j, k)` of `spans` (disjoint, ascending) by `repl`. -/
def spliceAll (s : List Char) (spans : List (Nat × Nat)) (repl : List Char) : List Char :=
  spans.reverse.foldl (fun acc jk => acc.take jk.1 ++ repl ++ acc.drop jk.2) s

/-- Python `P.sub(repl, s)`: replace every match (whole-match span). -/
def subAll (P : Pat) (s : List Char) (repl : List Char) : List Char :=
  spliceAll s ((finditer P s).map (fun m => (m.ms, m.me))) repl

/-- Python `P.split(s)` for a groupless pattern. -/
def splitRe (P : Pat) (s : List Char) : List (List Char) :=
  go 0 ((finditer P s).map (fun m => (m.ms, m.me)))
where
  go (cur : Nat) : List (Nat × Nat) → List (List Char)
    | [] => [s.drop cur]
    | (a, b) :: rest => slice s cur a :: go b rest

/-! ## The patterns of mediasorter.py (lines 450-481)

Each `Pat` is the source regex split around its `(?P<val>...)` group.
`[_\W]` and `[._\W]` both denote the non-alphanumeric characters
(see `isSepCh`); patterns compiled with `re.I` use `litI` and
case-folded classes. -/

-- [_\W](?P<val>[xh]\.?264|xvidhd|xvid|divx|mpeg2|avc)($|[_\W])  re.I
def match_video : Pat :=
  ⟨.cls isSepCh,
   altL [seqL [.cls (fun c => c.toLower = 'x' || c.toLower = 'h'),
               .rep (· = '.') 0 (some 1) true, lit "264"],
         litI "xvidhd", litI "xvid", litI "divx", litI "mpeg2", litI "avc"],
   .alt2 .eol (.cls isSepCh)⟩

-- [_\W](?P<val>\d{4})($|[_\W])
def match_year : Pat :=
  ⟨.cls isSepCh, .rep isDigitCh 4 (some 4) true, .alt2 .eol (.cls isSepCh)⟩

-- [_\W](?P<val>(\d(.1|Ch)[_\W]?)?(mp3|ac3|dts|dd|aac|ac-3)([_\W]?\d(.1|Ch)[_\W]?)?)($|[_\W])  re.I
def chanSuffix : RE := .alt2 (seqL [.cls isAnyCh, lit "1"]) (litI "ch")

def match_sound : Pat :=
  ⟨.cls isSepCh,
   seqL [opt (seqL [.cls isDigitCh, chanSuffix, .rep isSepCh 0 (some 1) true]),
         altL [litI "mp3", litI "ac3", litI "dts", litI "dd", litI "aac", litI "ac-3"],
         opt (seqL [.rep isSepCh 0 (some 1) true, .cls isDigitCh, chanSuffix,
                    .rep isSepCh 0 (some 1) true])],
   .alt2 .eol (.cls isSepCh)⟩

-- [_\W](?P<val>dvdrip|dvdscr|dvd|screener|scr|brrip|bdrip|bluray|hdtv|hdtvrip|hdrip|vhsrip|vhs|vod|vodrip)($|[_\W])  re.I
def match_rip : Pat :=
  ⟨.cls isSepCh,
   altL [litI "dvdrip", litI "dvdscr", litI "dvd", litI "screener", litI "scr",
         litI "brrip", litI "bdrip", litI "bluray", litI "hdtv", litI "hdtvrip",
         litI "hdrip", litI "vhsrip", litI "vhs", litI "vod", litI "vodrip"],
   .alt2 .eol (.cls isSepCh)⟩

-- [_\W](?P<val>((\d{3,4}x)?(720|1080)p?)|ws|hd)($|[_\W])  re.I
def match_resolution : Pat :=
  ⟨.cls isSepCh,
   .alt2 (seqL [opt (seqL [.rep isDigitCh 3 (some 4) true, litI "x"]),
                .alt2 (lit "720") (lit "1080"),
                .rep (fun c => c.toLower = 'p') 0 (some 1) true])
         (.alt2 (litI "ws") (litI "hd")),
   .alt2 .eol (.cls isSepCh)⟩

-- [_\W](?P<val>(english|eng|en|swedish|sv|swe|french|korean|nl|hindi)([_\W]?(subtitles|subbed|subs|sub))?)($|[_\W])  re.I
def match_lang : Pat :=
  ⟨.cls isSepCh,
   seqL [altL [litI "english", litI "eng", litI "en", litI "swedish", litI "sv",
               litI "swe", litI "french", litI "korean", litI "nl", litI "hindi"],
         opt (seqL [.rep isSepCh 0 (some 1) true,
                    altL [litI "subtitles", litI "subbed", litI "subs", litI "sub"]])],
   .alt2 .eol (.cls isSepCh)⟩

-- (^|[_\W])(?P<val>(cd|part|pt|episode|ep|s\d{1,2}e|vol)([._\W]?(\d{1,2}|[iv]+))?)($|[_\W])  re.I
def match_part : Pat :=
  ⟨.alt2 .bol (.cls isSepCh),
   seqL [altL [litI "cd", litI "part", litI "pt", litI "episode", litI "ep",
               seqL [litI "s", .rep isDigitCh 1 (some 2) true, litI "e"], litI "vol"],
         opt (seqL [.rep isSepCh 0 (some 1) true,
                    .alt2 (.rep isDigitCh 1 (some 2) true)
                          (.rep (fun c => c.toLower = 'i' || c.toLower = 'v') 1 none true)])],
   .alt2 .eol (.cls isSepCh)⟩

-- [_\W](?P<val>a|b|\d{1,2})(.#|$)  re.I
def match_part_alt : Pat :=
  ⟨.cls isSepCh,
   altL [litI "a", litI "b", .rep isDigitCh 1 (some 2) true],
   .alt2 (seqL [.cls isAnyCh, .cls (· = '#')]) .eol⟩

-- (^|[_\W])(?P<val>(mkv|divx|avi|mpg|m4v|mp4|iso|vob|VIDEO_TS|wmv|ogm))$  re.I
def match_extension : Pat :=
  ⟨.alt2 .bol (.cls isSepCh),
   altL [litI "mkv", litI "divx", litI "avi", litI "mpg", litI "m4v", litI "mp4",
         litI "iso", litI "vob", litI "VIDEO_TS", litI "wmv", litI "ogm"],
   .eol⟩

-- [_\W]*(?P<val>(demonoid|kat|isohunt|mininova|\d{6,}|www[_\W]\w+)([_\W]\w{2,4})?)[_\W]*  re.I
def match_torrent : Pat :=
  ⟨.rep isSepCh 0 none true,
   seqL [altL [litI "demonoid", litI "kat", litI "isohunt", litI "mininova",
               .rep isDigitCh 6 none true,
               seqL [litI "www", .cls isSepCh, .rep isWordCh 1 none true]],
         opt (seqL [.cls isSepCh, .rep isWordCh 2 (some 4) true])],
   .rep isSepCh 0 none true⟩

-- ^[_\W]*(?P<val>.{3,}?[])]?)([_\W]*#|[_\W]*$)  re.I
def match_title : Pat :=
  ⟨.seq .bol (.rep isSepCh 0 none true),
   .seq (.rep isAnyCh 3 none false) (.rep (fun c => c = ']' || c = ')') 0 (some 1) true),
   .alt2 (.seq (.rep isSepCh 0 none true) (.cls (· = '#')))
         (.seq (.rep isSepCh 0 none true) .eol)⟩

-- [. _#]{2,}|[]()[{}]   (no capture group: the whole match is `val`)
def match_split : Pat :=
  ⟨.eps,
   .alt2 (.rep (fun c => c = '.' || c = ' ' || c = '_' || c = '#') 2 none true)
         (.cls (fun c => c = ']' || c = '(' || c = ')' || c = '[' ||
                         c = Char.ofNat 123 || c = Char.ofNat 125)),
   .eps⟩

-- (?<! \d)(?P<val>\.+)(?!\d )
def match_clean1 : Pat :=
  ⟨.nlb [(· = ' '), isDigitCh], .rep (· = '.') 1 none true, .nla [isDigitCh, (· = ' ')]⟩

-- (?P<val>[_# ]+)
def match_clean2 : Pat :=
  ⟨.eps, .rep (fun c => c = '_' || c = '#' || c = ' ') 1 none true, .eps⟩

-- (?P<val> *-+ *)
def match_clean3 : Pat :=
  ⟨.eps, seqL [.rep (· = ' ') 0 none true, .rep (· = '-') 1 none true,
               .rep (· = ' ') 0 none true], .eps⟩

-- [-._ ]+[{([]? ?\$\$ ?[)}\]]?   (no capture group)
def match_unfilled_format_keys : Pat :=
  ⟨.eps,
   seqL [.rep (fun c => c = '-' || c = '.' || c = '_' || c = ' ') 1 none true,
         .rep (fun c => c = Char.ofNat 123 || c = '(' || c = '[') 0 (some 1) true,
         .rep (· = ' ') 0 (some 1) true,
         .cls (· = '$'), .cls (· = '$'),
         .rep (· = ' ') 0 (some 1) true,
         .rep (fun c => c = ')' || c = Char.ofNat 125 || c = ']') 0 (some 1) true],
   .eps⟩

/-- The format-validation scan of line 409: `re.finditer(r"$(\w+)", format)`.
The `$` is unescaped, hence an end-of-string anchor followed by `(\w+)`. -/
def match_format_key_code : Pat := ⟨.eol, .rep isWordCh 1 none true, .eps⟩

/-- Modelled from the spec: the intended placeholder scan `\$(\w+)` of the
up-front validation ("only recognized names allowed"), i.e. a literal dollar
sign followed by a word-character name. -/
def match_format_key_spec : Pat := ⟨.cls (· = '$'), .rep isWordCh 1 none true, .eps⟩

/-- All `$name` placeholder names occurring in a format string, read with the
spec's intended pattern. -/
def placeholderNamesSpec (fmt : String) : List String :=
  (finditer match_format_key_spec fmt.data).map (fun m => String.mk (slice fmt.data m.vs m.ve))

/-! ## `match_remove` (lines 487-508) and the metadata record -/

/-- `metadata[key].insert(0, v)` guarded by `v not in metadata[key]`. -/
def insertCandidate (l : List String) (v : String) : List String :=
  if l.contains v then l else v :: l

/-- `match_remove(reobj, str, metadata, key, max, replace)`.
`finditer` runs on the original string and the loop replaces each matched
`val` span (tracking the length offset), which amounts to splicing the spans
in original coordinates; matches with an empty `val` group are skipped and
do not count towards `max`.  `record = false` models a call in which the
`metadata and key` test fails, so the candidate list is left untouched. -/
def match_remove (P : Pat) (s : List Char) (lst : List String) (record : Bool)
    (mx : Nat) (repl : List Char) : List Char × List String :=
  let ms := ((finditer P s).filter (fun m => m.vs < m.ve)).take mx
  let lst2 :=
    if record then
      ms.foldl (fun acc m => insertCandidate acc (String.mk (slice s m.vs m.ve))) lst
    else lst
  (spliceAll s (ms.map (fun m => (m.vs, m.ve))) repl, lst2)

structure Metadata where
  mediatype : List String := []
  filetype : List String := []
  ext : List String := []
  video_codec : List String := []
  sound_codec : List String := []
  year : List String := []
  rip : List String := []
  resolution : List String := []
  part : List String := []
  title : List String := []
  lang : List String := []
  torrent : List String := []
  filename : List String := []
  mediaroot : List String := []
  discarded : List String := []
deriving Repr, DecidableEq

/-- The fixed key set of `format_keys` (line 100). -/
def formatKeyNames : List String :=
  ["mediatype", "filetype", "ext", "video_codec", "sound_codec", "year", "rip",
   "resolution", "part", "title", "lang", "torrent", "filename", "mediaroot",
   "discarded"]

def mdGet (md : Metadata) (k : String) : List String :=
  if k = "mediatype" then md.mediatype
  else if k = "filetype" then md.filetype
  else if k = "ext" then md.ext
  else if k = "video_codec" then md.video_codec
  else if k = "sound_codec" then md.sound_codec
  else if k = "year" then md.year
  else if k = "rip" then md.rip
  else if k = "resolution" then md.resolution
  else if k = "part" then md.part
  else if k = "title" then md.title
  else if k = "lang" then md.lang
  else if k = "torrent" then md.torrent
  else if k = "filename" then md.filename
  else if k = "mediaroot" then md.mediaroot
  else md.discarded

/-! ## `cmp_titles` (lines 511-516) -/

/-- `match_correctcase.sub("", x)` for the pattern `[A-Z][a-z]`: delete each
leftmost non-overlapping upper-then-lower pair. -/
def subCC : List Char → List Char
  | [] => []
  | [c] => [c]
  | c1 :: c2 :: rest =>
    if c1.isUpper && c2.isLower then subCC rest else c1 :: subCC (c2 :: rest)

def cmp_titles (x y : String) : Int :=
  let xscore : Int := ((x.length : Int) - ((subCC x.data).length : Int)) +
    (countCharL x.data ' ' : Int)
  let yscore : Int := ((y.length : Int) - ((subCC y.data).length : Int)) +
    (countCharL y.data ' ' : Int)
  yscore - xscore

/-- Stable insertion: `x` goes before the first element `y` with
`cmp x y ≤ 0`.  For the total preorder induced by a score this computes the
same list as Python's stable ascending `list.sort(cmp=...)`. -/
def insertCmp (cmp : α → α → Int) (x : α) : List α → List α
  | [] => [x]
  | y :: ys => if cmp x y ≤ 0 then x :: y :: ys else y :: insertCmp cmp x ys

def sortCmp (cmp : α → α → Int) : List α → List α
  | [] => []
  | x :: xs => insertCmp cmp x (sortCmp cmp xs)

/-! ## `analyze_video_file` (lines 550-636) -/

def sentinelR : List Char := ['#']

/-- The three-stage cleanup applied to each title candidate (lines 574-580). -/
def cleanupTitle (t : String) : String :=
  let t1 := (match_remove match_clean1 t.data [] false 10 [' ']).1
  let t2 := (match_remove match_clean2 t1 [] false 10 [' ']).1
  let t3 := (match_remove match_clean3 t2 [] false 10 [' ', '-', ' ']).1
  String.mk (stripWs t3)

/-- The cleanup applied to each leftover piece (lines 590-596). -/
def cleanupDiscard (t : String) : String :=
  let t1 := (match_remove match_clean1 t.data [] false 10 [' ']).1
  let t2 := (match_remove match_clean2 t1 [] false 10 [' ']).1
  let t3 := (match_remove match_clean3 t2 [] false 10 [' ']).1
  String.mk (stripWs t3)

/-- `if v not in l: l.append(v)` as used for title candidates (lines
583-584) and discarded tokens (lines 599-600). -/
def appendUnique (l : List String) (v : String) : List String :=
  if l.contains v then l else l ++ [v]

/-- One iteration of the `for str in components` loop of
`analyze_video_file` (lines 556-600). -/
def processComponent (md : Metadata) (c : String) : Metadata :=
  let r1 := match_remove match_extension c.data md.ext true 1 sentinelR
  let r2 := match_remove match_part r1.1 md.part true 1 sentinelR
  let r3 := match_remove match_part_alt r2.1 r2.2 true 1 sentinelR
  let r4 := match_remove match_video r3.1 md.video_codec true 1 sentinelR
  let r5 := match_remove match_year r4.1 md.year true 1 sentinelR
  let r6 := match_remove match_sound r5.1 md.sound_codec true 1 sentinelR
  let r7 := match_remove match_rip r6.1 md.rip true 1 sentinelR
  let r8 := match_remove match_resolution r7.1 md.resolution true 1 sentinelR
  let r9 := match_remove match_torrent r8.1 md.torrent true 1 sentinelR
  let r10 := match_remove match_title r9.1 md.title true 1 sentinelR
  -- line 569: `match_remove(match_lang, str, metadata['lang'])` passes the
  -- lang candidate list positionally as the `metadata` parameter and leaves
  -- `key=None`, so the recording branch `if metadata and key:` never runs;
  -- the matched span is still replaced in the string.
  let r11 := match_remove match_lang r10.1 md.lang false 1 sentinelR
  let newtitles := r10.2.foldl (fun acc t =>
    let t4 := cleanupTitle t
    if t4 ≠ "" then appendUnique acc t4 else acc) []
  let discarded2 := (splitRe match_split r11.1).foldl (fun acc p =>
    let p4 := cleanupDiscard (String.mk p)
    if p4 ≠ "" then appendUnique acc p4 else acc) md.discarded
  { md with
    ext := r1.2, part := r3.2, video_codec := r4.2, year := r5.2,
    sound_codec := r6.2, rip := r7.2, resolution := r8.2, torrent := r9.2,
    title := newtitles, lang := r11.2, discarded := discarded2 }

/-- The extraction phase of `analyze_video_file`: run every component and the
file name (appended last) through the rule pipeline, then order the title
candidates with `cmp_titles` when there is more than one. -/
def extractMetadata (components : List String) (file : String) : Metadata :=
  let md := (components ++ [file]).foldl processComponent {}
  if md.title.length > 1 then { md with title := sortCmp cmp_titles md.title } else md

/-- `video_types` (line 184). -/
def video_types : List (String × String) :=
  [("mkv", "Mkv-Etc"), ("divx", "Divx"), ("avi", "Divx"), ("mpg", "Divx"),
   ("mp4", "h264"), ("m4v", "h264"), ("iso", "DVD"), ("vob", "DVD"),
   ("img", "DVD"), ("VIDEO_TS", "DVD"), ("wmv", "Other"), ("ogm", "Other")]

def setAssoc (mp : List (String × String)) (k v : String) : List (String × String) :=
  mp.map (fun p => if p.1 = k then (k, v) else p)

def isIdentStart (c : Char) : Bool := c.isAlpha || c = '_'

def isIdentCh (c : Char) : Bool := c.isAlphanum || c = '_'

/-- `string.Template(tpl).substitute(mapping)`: `$$` is a literal dollar,
`$name` is looked up (values are not re-scanned); a missing key (KeyError)
or an invalid placeholder yields `none`.  Structural recursion on a fuel
bound of one step per character so the kernel can evaluate it. -/
def substituteGo (mp : List (String × String)) : Nat → List Char → Option (List Char)
  | 0, _ => none
  | fuel + 1, tpl =>
    match tpl with
    | [] => some []
    | ['$'] => none
    | '$' :: c :: rest2 =>
      if c = '$' then (substituteGo mp fuel rest2).map (fun r => '$' :: r)
      else if isIdentStart c then
        let nmTail := rest2.takeWhile isIdentCh
        match List.lookup (String.mk (c :: nmTail)) mp with
        | some v => (substituteGo mp fuel (rest2.drop nmTail.length)).map (fun r => v.data ++ r)
        | none => none
      else none
    | c :: rest => (substituteGo mp fuel rest).map (fun r => c :: r)

def substituteL (tpl : List Char) (mp : List (String × String)) : Option (List Char) :=
  substituteGo mp (tpl.length + 1) tpl

/-- `analyze_video_file(components, file)` with the (global) format string
made explicit.  Returns `none` where the Python raises (IndexError on an
empty `ext` list, KeyError on an unknown `video_types` key or a template
key missing from `formatdata`, TypeError on the `mediaroot` branch,
ValueError when the rendered string has no `/` left to rsplit on). -/
def analyze_video_file (fmt : String) (components : List String) (file : String) :
    Option (String × String) :=
  let md := extractMetadata components file
  let chosen := formatKeyNames.filter (fun n => containsL fmt.data n.data)
  let fd0 := chosen.map (fun n => (n, match mdGet md n with | v :: _ => v | [] => "$$"))
  let step1 : Option (List (String × String)) :=
    if chosen.contains "filetype" then
      match md.ext with
      | e :: _ =>
        match List.lookup e video_types with
        | some v => some (setAssoc fd0 "filetype" v)
        | none => none
      | [] => none
    else some fd0
  match step1 with
  | none => none
  | some fd1 =>
    let fd2 := if chosen.contains "filename" then setAssoc fd1 "filename" file else fd1
    if chosen.contains "mediaroot" then none
    else
      let tplOpt : Option String :=
        if chosen.contains "ext" then
          match md.ext with
          | e :: _ =>
            some (if e = "VIDEO_TS" then
                    String.mk (replaceAllL fmt.data ".$ext".data "/$ext".data)
                  else fmt)
          | [] => none
        else some fmt
      match tplOpt with
      | none => none
      | some tpl =>
        match substituteL tpl.data fd2 with
        | none => none
        | some rendered =>
          match rsplitOnce (subAll match_unfilled_format_keys rendered []) '/' with
          | some ab => some (String.mk ab.1, String.mk ab.2)
          | none => none

/-! ## Format validation (lines 407-431) -/

def okClean (fmt : String) : Except String String :=
  .ok (String.mk (translateDel fmt.data "\\?*:|\"<>".data))

/-- The up-front validation of the format template, in source order.  The
first check iterates `re.finditer(r"$(\w+)", format)` and exits on a name
outside `format_keys`; the `$` in that pattern is an anchor, which is
embedded faithfully by `match_format_key_code`. -/
def validateFormat (fmt : String) : Except String String :=
  match (finditer match_format_key_code fmt.data).filter
      (fun m => !formatKeyNames.contains (String.mk (slice fmt.data m.vs m.ve))) with
  | m :: _ =>
    .error ("Key " ++ String.mk (slice fmt.data m.ms m.me) ++ " in format " ++ fmt ++
      " is not a recognized key")
  | [] =>
    if strStartsWith fmt "/" then
      .error ("Format " ++ fmt ++ " cannot begin with /")
    else if !containsL fmt.data "$filename".data && !containsL fmt.data "$ext".data then
      .error "Format lacks $ext and $filename, need to have either one"
    else if countCharL fmt.data '/' = 0 then
      .error ("Format " ++ fmt ++ " need to have at least one folder in the path!")
    else
      match findSub fmt.data "$title".data with
      | none => .error "No $title format found in input format - you need to sort at least by title"
      | some tIdx =>
        match findSub fmt.data "$part".data with
        | some pIdx =>
          if pIdx < tIdx then .error "$part format cannot be before $title" else okClean fmt
        | none =>
          if (findSub fmt.data "$filename".data).isNone then
            .error "No $part in format and not using $filename is not allowed (because may overwrite part files)"
          else okClean fmt

/-! ## The operation queue and `move` (lines 256-321)

Queued commands are modelled as structured operations (the script formats
them into shell strings; the data content is the same).  `created_paths`
is the process-wide set of destination directories for which a `mkdir -p`
has been queued.  The filesystem is a fixed predicate `fsEx`: during
planning nothing is executed, so `os.path.exists` answers from an
unchanging snapshot. -/

inductive Op where
  | mkdirRec : String → Op
  | mv : List String → String → String → Op   -- source paths, todir, tofile
  | rm : List String → Op
  | warnOrphans : List String → Op            -- the orphan-subfiles warning print
deriving Repr, DecidableEq

structure PlanState where
  created : List String := []
  ops : List Op := []
deriving Repr, DecidableEq

inductive FromFiles where
  | one : String → FromFiles
  | many : List String → FromFiles
deriving Repr, DecidableEq

/-- Lines 318-321: queue `mkdir -p todir` unless already created or existing,
then queue the move itself. -/
def queueMove (fsEx : String → Bool) (st : PlanState) (srcs : List String)
    (todir tofile : String) : PlanState :=
  let st1 :=
    if !st.created.contains todir && !fsEx todir then
      { created := todir :: st.created, ops := st.ops ++ [Op.mkdirRec todir] }
    else st
  { st1 with ops := st1.ops ++ [Op.mv srcs todir tofile] }

/-- `move(fromdir, fromfile, todir, tofile="", all=False)` (lines 299-321).
With a list of from-files and a non-empty `tofile` the source raises before
anything is queued; `all=True` collapses the sources to a wildcard. -/
def move (fsEx : String → Bool) (st : PlanState) (fromdir : String)
    (fromfile : FromFiles) (todir : String) (tofile : String) (all : Bool) :
    Except String PlanState :=
  match fromfile with
  | .many fs =>
    if tofile ≠ "" then
      .error ("To file " ++ tofile ++ " must be empty when having multiple from files")
    else
      let srcs := if all then [pjoin fromdir "*"] else fs.map (pjoin fromdir)
      .ok (queueMove fsEx st srcs todir tofile)
  | .one f => .ok (queueMove fsEx st [pjoin fromdir f] todir tofile)

structure MoveCall where
  fromdir : String
  fromfile : FromFiles
  todir : String
  tofile : String
  all : Bool
deriving Repr, DecidableEq

/-- A run of successive `move` calls; an exception aborts the run with the
operations queued so far. -/
def runMoves (fsEx : String → Bool) (st : PlanState) : List MoveCall → PlanState
  | [] => st
  | c :: cs =>
    match move fsEx st c.fromdir c.fromfile c.todir c.tofile c.all with
    | .ok st2 => runMoves fsEx st2 cs
    | .error _ => st

/-! ## `has_media` collision avoidance (lines 663-674) -/

/-- The `while os.path.exists(os.path.join(media_dir, dirname)):
dirname = "copy_" + dirname` loop of `has_media`, with the existing paths
given as a finite list; the fuel argument bounds the iterations. -/
def freeDirname (existing : List String) (media_dir : String) : Nat → String → String
  | 0, d => d
  | fuel + 1, d =>
    if existing.contains (pjoin media_dir d) then
      freeDirname existing media_dir fuel ("copy_" ++ d)
    else d

/-- The destination directory name `has_media` settles on: `existing.length + 1`
iterations always suffice (proved below). -/
def has_media_dirname (existing : List String) (media_dir dirname : String) : String :=
  freeDirname existing media_dir (existing.length + 1) dirname

/-! ## The sort-phase planner for one media-file root (lines 765-860) -/

structure RootInput where
  media_dir : String
  root : String
  components : List String
  mediafiles : List String
  subfiles : List (String × List String)   -- base name -> subtitle extensions
  keepfiles : List String
  deletefiles : List String
  metafiles : List String                  -- already extended with the subdirs (line 772)
deriving Repr

structure SortState where
  ps : PlanState
  subs : List (String × List String)
  metafiles : List String
  movedMeta : Bool

def eraseKey (l : List (String × List String)) (k : String) : List (String × List String) :=
  l.filter (fun p => p.1 ≠ k)

/-- One iteration of `for f,nf in moves[newpath]` (lines 823-838). -/
def mediaFileStep (fsEx : String → Bool) (root newroot : String) (same_dir : Bool)
    (acc : PlanState × List (String × List String) × List String) (fnf : String × String) :
    Except String (PlanState × List (String × List String) × List String) := do
  let (st, subs, conc) := acc
  let f := fnf.1
  let nf := fnf.2
  let fname := String.mk (splitextL f.data).1
  if f ≠ nf then
    let st ← move fsEx st root (.one f) newroot nf false
    match List.lookup fname subs with
    | some exts =>
      let nfName := String.mk (splitextL nf.data).1
      let st ← exts.foldlM (fun s e =>
        move fsEx s root (.one (fname ++ "." ++ e)) newroot (nfName ++ "." ++ e) false) st
      return (st, eraseKey subs fname, conc)
    | none => return (st, subs, conc)
  else if !same_dir then
    match List.lookup fname subs with
    | some exts =>
      return (st, eraseKey subs fname,
        conc ++ [f] ++ exts.map (fun e => fname ++ "." ++ e))
    | none => return (st, subs, conc ++ [f])
  else
    return (st, subs, conc)

/-- One iteration of `for newpath in moves.iterkeys()` (lines 817-860).
CPython 2 iterates dict keys in hash order; the model fixes first-insertion
order, and the claims are settled on facts that do not depend on it. -/
def groupStep (fsEx : String → Bool) (media_dir root : String) (keepfiles : List String)
    (has_meta : Bool) (nGroups : Nat) (acc : SortState)
    (grp : String × List (String × String)) : Except String SortState := do
  let newpath := grp.1
  let newroot := pjoin media_dir newpath
  let same_dir := newroot = root
  let r ← grp.2.foldlM (mediaFileStep fsEx root newroot same_dir)
    (acc.ps, acc.subs, ([] : List String))
  let (st, subs, conc) := r
  let passThrough : PlanState × List String × List String × Bool :=
    (st, conc, acc.metafiles, acc.movedMeta)
  let step2 : Except String (PlanState × List String × List String × Bool) :=
    if !same_dir && !acc.movedMeta then do
      -- lines 842-845: remaining subfiles are orphans; they are appended to
      -- conc_moves and the warning prints the whole conc_moves list
      let conc :=
        if subs.length > 0 then
          conc ++ subs.foldl (fun a p => a ++ p.2.map (fun e => p.1 ++ "." ++ e)) []
        else conc
      let st :=
        if subs.length > 0 then { st with ops := st.ops ++ [Op.warnOrphans conc] } else st
      -- lines 846-849: note the source appends the literal string
      -- 'meta_dir_name' and calls metafiles.remove on a list that no longer
      -- contains it (removed at line 776), a ValueError
      let r2 : Except String (List String × List String) :=
        if acc.metafiles.length > 0 then
          if has_meta then
            if acc.metafiles.contains "metadata" then
              .ok (conc ++ ["meta_dir_name"], acc.metafiles.erase "metadata")
            else .error "ValueError: list.remove(x): x not in list"
          else .ok (conc, acc.metafiles)
        else .ok (conc, acc.metafiles)
      match r2 with
      | .ok cm => .ok (st, cm.1 ++ keepfiles, cm.2, true)
      | .error e => .error e
    else .ok passThrough
  let s2 ← step2
  let (st, conc, metafiles, movedMeta) := s2
  let st ←
    if conc.length > 0 then
      if !same_dir && nGroups = 1 then
        move fsEx st root (.many conc) newroot "" true
      else
        -- line 860 passes `newpath` (relative to media_dir), not `newroot`
        move fsEx st root (.many conc) newpath "" false
    else pure st
  return ⟨st, subs, metafiles, movedMeta⟩

def addGroup (acc : List (String × List (String × String))) (t : String × String × String) :
    List (String × List (String × String)) :=
  if acc.any (fun g => g.1 = t.1) then
    acc.map (fun g => if g.1 = t.1 then (g.1, g.2 ++ [(t.2.1, t.2.2)]) else g)
  else acc ++ [(t.1, [(t.2.1, t.2.2)])]

/-- The grouping of lines 808-813: destination directory -> (file, newfile). -/
def groupMoves (ts : List (String × String × String)) : List (String × List (String × String)) :=
  ts.foldl addGroup []

/-- The per-media-root planning of the sort phase (lines 765-860), with the
subtitle-download step skipped (`args.subs` is the empty default).  Returns
the extended plan state, or the message of the exception the source would
raise. -/
def planRoot (fsEx : String → Bool) (fmt : String) (st0 : PlanState) (inp : RootInput) :
    Except String PlanState := do
  let st :=
    if inp.deletefiles.length > 0 then
      { st0 with ops := st0.ops ++ [Op.rm (inp.deletefiles.map (pjoin inp.root))] }
    else st0
  let metapath := pjoin (pjoin inp.root "metadata") ""
  let has_meta := inp.metafiles.contains "metadata"
  let metafiles1 := if has_meta then inp.metafiles.erase "metadata" else inp.metafiles
  let st ←
    if metafiles1.length > 0 then
      move fsEx st inp.root (.many metafiles1) metapath "" false
    else pure st
  let triples ← inp.mediafiles.mapM (fun f => do
    match analyze_video_file fmt inp.components f with
    | some pnf => pure (pnf.1, f, pnf.2)
    | none => throw "exception in analyze_video_file")
  let groups := groupMoves triples
  let fin ← groups.foldlM
    (groupStep fsEx inp.media_dir inp.root inp.keepfiles has_meta groups.length)
    (⟨st, inp.subfiles, metafiles1, false⟩ : SortState)
  return fin.ps

/-! ## Definitions used to state and settle the claims -/

/-- The operations of a plan result (empty on the exceptional path). -/
def opsOf (r : Except String PlanState) : List Op :=
  match r with
  | .ok st => st.ops
  | .error _ => []

/-- Modelled from the spec: the language rule "records the captured value
into the field's candidate list" like the other rules, i.e. the call of
line 569 as the surrounding nine calls are written, passing the metadata
record and the key `'lang'`.  Identical to `processComponent` except that
the lang call records. -/
def processComponentFixed (md : Metadata) (c : String) : Metadata :=
  let r1 := match_remove match_extension c.data md.ext true 1 sentinelR
  let r2 := match_remove match_part r1.1 md.part true 1 sentinelR
  let r3 := match_remove match_part_alt r2.1 r2.2 true 1 sentinelR
  let r4 := match_remove match_video r3.1 md.video_codec true 1 sentinelR
  let r5 := match_remove match_year r4.1 md.year true 1 sentinelR
  let r6 := match_remove match_sound r5.1 md.sound_codec true 1 sentinelR
  let r7 := match_remove match_rip r6.1 md.rip true 1 sentinelR
  let r8 := match_remove match_resolution r7.1 md.resolution true 1 sentinelR
  let r9 := match_remove match_torrent r8.1 md.torrent true 1 sentinelR
  let r10 := match_remove match_title r9.1 md.title true 1 sentinelR
  let r11 := match_remove match_lang r10.1 md.lang true 1 sentinelR
  let newtitles := r10.2.foldl (fun acc t =>
    let t4 := cleanupTitle t
    if t4 ≠ "" then appendUnique acc t4 else acc) []
  let discarded2 := (splitRe match_split r11.1).foldl (fun acc p =>
    let p4 := cleanupDiscard (String.mk p)
    if p4 ≠ "" then appendUnique acc p4 else acc) md.discarded
  { md with
    ext := r1.2, part := r3.2, video_codec := r4.2, year := r5.2,
    sound_codec := r6.2, rip := r7.2, resolution := r8.2, torrent := r9.2,
    title := newtitles, lang := r11.2, discarded := discarded2 }

/-- Modelled from the spec: `extractMetadata` with the intended lang call. -/
def extractMetadataFixed (components : List String) (file : String) : Metadata :=
  let md := (components ++ [file]).foldl processComponentFixed {}
  if md.title.length > 1 then { md with title := sortCmp cmp_titles md.title } else md

/-- Non-overlapping count of `[A-Z][a-z]` matches, the quantity whose
doubled value `cmp_titles` actually scores via the length difference. -/
def countCC : List Char → Nat
  | [] => 0
  | [_] => 0
  | c1 :: c2 :: rest =>
    if c1.isUpper && c2.isLower then countCC rest + 1 else countCC (c2 :: rest)

/-- Modelled from the spec: "count of adjacent upper-then-lower-case letter
pairs in the string" read literally, as the number of adjacent positions
with an upper-case letter followed by a lower-case letter. -/
def specAdjacentPairs (s : List Char) : Nat :=
  (s.zip s.tail).countP (fun p => p.1.isUpper && p.2.isLower)

/-- Modelled from the spec: the claimed title score,
(count of adjacent upper-then-lower pairs) + (count of spaces). -/
def claimTitleScore (s : String) : Nat :=
  specAdjacentPairs s.data + countCharL s.data ' '

/-- The score `cmp_titles` actually compares by (proved below):
2 * (case pairs) + (count of spaces). -/
def codeTitleScore (s : String) : Int :=
  2 * (specAdjacentPairs s.data : Int) + (countCharL s.data ' ' : Int)

/-- First occurrences of a string list, in order. -/
def firstOccs : List String → List String
  | [] => []
  | v :: vs => v :: firstOccs (vs.filter (fun w => w != v))
termination_by l => l.length
decreasing_by
  exact Nat.lt_succ_of_le (List.length_filter_le _ _)

/-- `"copy_"` applied `k` times, the candidate names of the `has_media`
collision loop. -/
def copyK : Nat → String → String
  | 0, d => d
  | k + 1, d => "copy_" ++ copyK k d

def isMkdirFor (d : String) : Op → Bool
  | .mkdirRec x => x = d
  | _ => false

def isMvInto (d : String) : Op → Bool
  | .mv _ todir _ => todir = d
  | _ => false

def containsMkdirFor (d : String) (ops : List Op) : Bool := ops.any (isMkdirFor d)

def containsMvInto (d : String) (ops : List Op) : Bool := ops.any (isMvInto d)

/-- `true` iff some move into `d` occurs strictly before a `mkdir -p d`. -/
def badOrder (d : String) : List Op → Bool
  | [] => false
  | o :: rest => (isMvInto d o && containsMkdirFor d rest) || badOrder d rest

/-- The invariant maintained by `queueMove` over the queued operations and
the created-paths set. -/
def MkdirInv (fsEx : String → Bool) (st : PlanState) : Prop :=
  ∀ d : String,
    st.ops.countP (isMkdirFor d) ≤ 1 ∧
    badOrder d st.ops = false ∧
    (containsMkdirFor d st.ops = true → st.created.contains d = true) ∧
    (containsMvInto d st.ops = true → containsMkdirFor d st.ops = false →
      st.created.contains d = true ∨ fsEx d = true)

/-- The media-unit input of the claim C2 scenario: two media files bound
for two fresh destination directories, plus one subtitle file `x.srt`
whose base name matches no media file. -/
def planC2Input : RootInput where
  media_dir := "/m"
  root := "/m/Src"
  components := ["Src"]
  mediafiles := ["Aaaa.CD1.avi", "Bbbb.CD2.avi"]
  subfiles := [("x", ["srt"])]
  keepfiles := []
  deletefiles := []
  metafiles := []

/-- The media-unit input of the claim C3 scenario: two distinct files that
resolve to the same destination directory and destination file name under
the format `$title/$part.$ext`. -/
def planC3Input : RootInput where
  media_dir := "/m"
  root := "/m/AAA"
  components := ["AAA"]
  mediafiles := ["Movie.CD1.avi", "Movie CD1.avi"]
  subfiles := []
  keepfiles := []
  deletefiles := []
  metafiles := []

/-- Planning never executes anything, so a fresh library is modelled by a
filesystem snapshot on which no destination exists yet. -/
def fsNone : String → Bool := fun _ => false

/-! # Theorems -/

/-! ## C1 : the unknown-placeholder check never fires -/

theorem ends_eol_cases (s : List Char) (i j : Nat)
    (h : j ∈ ends .eol s i) :
    j = i ∧ (i = s.length ∨ (i + 1 = s.length ∧ charAt s i = '\n')) := by
  unfold ends at h
  by_cases h1 : i = s.length
  · simp [h1] at h
    exact ⟨h.trans h1.symm, Or.inl h1⟩
  · rw [if_neg h1] at h
    by_cases h2 : i + 1 = s.length ∧ charAt s i = '\n'
    · rw [if_pos (by simp [h2.1, h2.2])] at h
      simp at h
      exact ⟨h, Or.inr h2⟩
    · rw [if_neg (by simpa using h2)] at h
      simp at h

theorem clsRun_word_at_end (s : List Char) (i : Nat)
    (h : i = s.length ∨ (i + 1 = s.length ∧ charAt s i = '\n')) :
    clsRun isWordCh s i = 0 := by
  rcases h with h | ⟨h1, h2⟩
  · simp [clsRun, h, List.drop_length]
  · have hlt : i < s.length := by omega
    have hdrop : s.drop i = charAt s i :: s.drop (i + 1) := by
      rw [List.drop_eq_getElem_cons hlt]
      simp [charAt, List.getD, List.getElem?_eq_getElem hlt]
    rw [clsRun, hdrop, h2]
    simp [List.takeWhile, isWordCh, Char.isAlphanum, Char.isAlpha, Char.isDigit,
      Char.isUpper, Char.isLower]

theorem firstSome_eq_none {α β : Type} {l : List α} {f : α → Option β}
    (h : ∀ a ∈ l, f a = none) : firstSome l f = none := by
  induction l with
  | nil => rfl
  | cons a as ih =>
    unfold firstSome
    rw [h a (by simp)]
    exact ih (fun x hx => h x (by simp [hx]))

theorem matchAt_format_key_code_none (s : List Char) (i : Nat) :
    matchAt match_format_key_code s i = none := by
  unfold matchAt match_format_key_code
  apply firstSome_eq_none
  intro j hj
  have h := ends_eol_cases s i j hj
  have hrun : clsRun isWordCh s j = 0 := by
    rw [h.1]; exact clsRun_word_at_end s i h.2
  have hval : ends (.rep isWordCh 1 none true) s j = [] := by
    simp [ends, hrun]
  simp only [hval]
  rfl

theorem finditer_format_key_code_nil (s : List Char) :
    finditer match_format_key_code s = [] := by
  unfold finditer
  suffices h : ∀ fuel i, findFrom match_format_key_code s fuel i = [] from h _ 0
  intro fuel
  induction fuel with
  | zero => intro i; rfl
  | succ n ih =>
    intro i
    unfold findFrom
    rw [matchAt_format_key_code_none]
    by_cases h : i > s.length
    · simp [h]
    · simp [h, ih]

/-- C1.  The claim states that a format template containing a placeholder
name outside the fixed vocabulary is rejected before traversal.  The code
is wrong: the scan at line 409 uses the pattern `$(\w+)` in which `$` is an
end-of-string anchor, not an escaped dollar, so it matches nothing on any
input and the unknown-key exit is dead code.  The template
`"$title/$bogus $filename"` contains the unrecognized placeholder `$bogus`
(third conjunct, read with the spec's intended scan; `bogus` is not a
recognized key by the fourth) yet passes the whole validation (second
conjunct).  The first conjunct proves the scan is dead on every string. -/
theorem claim1_unknown_placeholder_not_rejected :
    (∀ s : List Char, finditer match_format_key_code s = []) ∧
    validateFormat "$title/$bogus $filename" = .ok "$title/$bogus $filename" ∧
    placeholderNamesSpec "$title/$bogus $filename" = ["title", "bogus", "filename"] ∧
    formatKeyNames.contains "bogus" = false :=
  ⟨finditer_format_key_code_nil, by rfl, by rfl, by rfl⟩

/-! ## C2 : orphaned subtitles are warned about but moved, not left in place -/

/-- C2 counterexample.  In the `planC2Input` unit the subtitle `x.srt`
matches no media file's base name, so it is orphaned; the claim says it is
left in place with no move queued for it.  The produced plan queues the
move `mv /m/Src/x.srt -> Aaaa/` for it (first conjunct), right after the
warning (second conjunct), refuting the claim at this concrete input. -/
theorem claim2_counterexample :
    (opsOf (planRoot fsNone "$title/$part.$ext" {} planC2Input)).contains
      (Op.mv ["/m/Src/x.srt"] "Aaaa" "") = true ∧
    (opsOf (planRoot fsNone "$title/$part.$ext" {} planC2Input)).contains
      (Op.warnOrphans ["x.srt"]) = true :=
  ⟨by rfl, by rfl⟩

/-- C2 as amended: an orphaned subtitle is reported with a warning and the
condition is not fatal, but the file is not left in place: it is appended
to the batch move aimed at the first destination directory processed for
the unit (the line-860 call, which passes the media-root-relative
`newpath` as the destination).  The full plan for the scenario. -/
theorem claim2_amended :
    planRoot fsNone "$title/$part.$ext" {} planC2Input =
      .ok ⟨["/m/Bbbb", "Aaaa", "/m/Aaaa"],
           [Op.mkdirRec "/m/Aaaa",
            Op.mv ["/m/Src/Aaaa.CD1.avi"] "/m/Aaaa" "CD1.avi",
            Op.warnOrphans ["x.srt"],
            Op.mkdirRec "Aaaa",
            Op.mv ["/m/Src/x.srt"] "Aaaa" "",
            Op.mkdirRec "/m/Bbbb",
            Op.mv ["/m/Src/Bbbb.CD2.avi"] "/m/Bbbb" "CD2.avi"]⟩ := by
  rfl

/-! ## C5 : the language rule never records its captured value -/

/-- C5.  The claim states the language rule records its captured value into
the lang candidate list like every other rule.  The code is wrong: line 569
passes `metadata['lang']` positionally as the `metadata` parameter of
`match_remove` and leaves `key=None`, so the recording branch never runs.
For `Movie.2007.english.avi` the rule set reaches the lang rule with the
string `#.#.english.#`, where the lang pattern does capture `english` and
excise it (second conjunct, shown with a recording call), yet the extracted
record has an empty lang list (first conjunct).  With the call written like
the other nine rules (spec-modelled `extractMetadataFixed`), `english` is
recorded (third conjunct). -/
theorem claim5_lang_never_recorded :
    (extractMetadata [] "Movie.2007.english.avi").lang = [] ∧
    match_remove match_lang "#.#.english.#".data [] true 1 sentinelR =
      ("#.#.#.#".data, ["english"]) ∧
    (extractMetadataFixed [] "Movie.2007.english.avi").lang = ["english"] :=
  ⟨by rfl, by rfl, by rfl⟩

/-! ## C10 : a batched move with a named destination file raises first -/

/-- C10.  A call of the move-planning primitive with a list of source files
and a non-empty destination file name returns the exception of line 305
and queues nothing (the raise sits before the mkdir check and the queue
calls, and the error result carries no state). -/
theorem claim10_move_raises_on_named_multi_target (fsEx : String → Bool)
    (st : PlanState) (fromdir : String) (fs : List String) (todir tofile : String)
    (all : Bool) (h : tofile ≠ "") :
    move fsEx st fromdir (.many fs) todir tofile all =
      .error ("To file " ++ tofile ++ " must be empty when having multiple from files") := by
  simp [move, h]

/-- C10 witness: the theorem applied at a concrete call. -/
theorem claim10_witness :
    move fsNone {} "/m/Src" (.many ["a.avi", "b.avi"]) "/m/Dest" "x.avi" false =
      .error "To file x.avi must be empty when having multiple from files" :=
  claim10_move_raises_on_named_multi_target fsNone {} "/m/Src" ["a.avi", "b.avi"]
    "/m/Dest" "x.avi" false (by decide)

/-! ## C3 counterexample : same destination, no disambiguation in the plan -/

/-- C3 counterexample.  Under the valid format `$title/$part.$ext` the two
distinct files `Movie.CD1.avi` and `Movie CD1.avi` of one unit both resolve
to destination directory `Movie` and destination file name `CD1.avi`.  The
plan queues two moves for them to the identical destination path
`/m/Movie/CD1.avi` with no disambiguating prefix or suffix on the second,
so the second queued move overwrites the result of the first. -/
theorem claim3_counterexample :
    opsOf (planRoot fsNone "$title/$part.$ext" {} planC3Input) =
      [Op.mkdirRec "/m/Movie",
       Op.mv ["/m/AAA/Movie.CD1.avi"] "/m/Movie" "CD1.avi",
       Op.mv ["/m/AAA/Movie CD1.avi"] "/m/Movie" "CD1.avi"] ∧
    pjoin "/m/Movie" "CD1.avi" = "/m/Movie/CD1.avi" :=
  ⟨by rfl, by rfl⟩

/-! ## C4 counterexample : the comparator weighs case pairs twice -/

/-- C4 counterexample.  With the claimed score (case pairs + spaces),
`"a b c"` scores 2 and `"Ab"` scores 1, so the claim orders `"a b c"`
first.  The code scores via the length difference of the `[A-Z][a-z]`
substitution, which counts two per pair: both strings score 2, the
comparator ties, and the stable sort keeps `"Ab"` first. -/
theorem claim4_counterexample :
    claimTitleScore "a b c" = 2 ∧ claimTitleScore "Ab" = 1 ∧
    cmp_titles "Ab" "a b c" = 0 ∧
    sortCmp cmp_titles ["Ab", "a b c"] = ["Ab", "a b c"] :=
  ⟨by rfl, by rfl, by rfl, by rfl⟩

/-! ## C6 counterexample : the year can survive into the title -/

/-- C6 counterexample.  The file name `1984.my.1984.avi` contains the
4-digit year `1984` bounded by separators (the second occurrence; the year
pattern matches exactly there, first two conjuncts).  The year field's top
candidate is that string, but the year substring does occur in the produced
title candidate `1984 my` (built from the unbounded first occurrence),
refuting the claim's second conjunct at this input. -/
theorem claim6_counterexample :
    finditer match_year "1984.my.1984.avi".data = [⟨7, 8, 12, 13⟩] ∧
    String.mk (slice "1984.my.1984.avi".data 8 12) = "1984" ∧
    (extractMetadata [] "1984.my.1984.avi").year = ["1984"] ∧
    (extractMetadata [] "1984.my.1984.avi").title = ["1984 my"] ∧
    containsL "1984 my".data "1984".data = true :=
  ⟨by rfl, by rfl, by rfl, by rfl, by rfl⟩

/-! ## C7 counterexample : a sentinel not preceded by a separator survives -/

/-- C7 counterexample.  The template `$title/($year) $filename` is accepted
by the validation (first conjunct) and references `year`, whose candidate
list is empty for `MyMovie.avi` (second conjunct).  The cleanup pattern
`[-._ ]+[{([]? ?\$\$ ?[)}\]]?` requires a separator before the sentinel,
and here `($$` follows `/`, so the rendered destination file name keeps
both the `$$` placeholder residue and its adjoining parentheses. -/
theorem claim7_counterexample :
    validateFormat "$title/($year) $filename" = .ok "$title/($year) $filename" ∧
    (extractMetadata ["AAA"] "MyMovie.avi").year = [] ∧
    analyze_video_file "$title/($year) $filename" ["AAA"] "MyMovie.avi" =
      some ("MyMovie", "($$) MyMovie.avi") ∧
    containsL "($$) MyMovie.avi".data "$$".data = true ∧
    containsL "($$) MyMovie.avi".data "(".data = true :=
  ⟨by rfl, by rfl, by rfl, by rfl, by rfl⟩

/-! ## C8 counterexample : the discarded field appends, outer first -/

/-- C8 counterexample.  Processing the outer component
`Alpha.2001.JunkA` and then the file `Beta.2002.JunkB.avi`, the discarded
token of the inner string (`JunkB`, last two conjuncts show which string
contributes which token) is appended after the outer one, so for the
discarded field an inner-component match does not appear ahead of an outer
one.  The year field shows the front-insertion rule of the other fields
(inner `2002` ahead of outer `2001`). -/
theorem claim8_counterexample :
    (extractMetadata ["Alpha.2001.JunkA"] "Beta.2002.JunkB.avi").discarded =
      ["JunkA", "JunkB"] ∧
    (extractMetadata ["Alpha.2001.JunkA"] "Beta.2002.JunkB.avi").year =
      ["2002", "2001"] ∧
    (extractMetadata [] "Alpha.2001.JunkA").discarded = ["JunkA"] ∧
    (extractMetadata [] "Beta.2002.JunkB.avi").discarded = ["JunkB"] :=
  ⟨by rfl, by rfl, by rfl, by rfl⟩

/-! ## C4 amended : the comparator's real score -/

theorem isUpper_ne_isLower (c : Char) (h : c.isLower = true) : c.isUpper = false := by
  by_contra hc
  rw [Bool.not_eq_false] at hc
  simp only [Char.isLower, Bool.and_eq_true, decide_eq_true_eq] at h
  simp only [Char.isUpper, Bool.and_eq_true, decide_eq_true_eq] at hc
  have h1 : (97 : UInt32) ≤ c.val := h.1
  have h2 : c.val ≤ (90 : UInt32) := hc.2
  rw [UInt32.le_def, BitVec.le_def] at h1 h2
  simp at h1 h2
  omega

theorem subCC_len : ∀ l : List Char, (subCC l).length + 2 * countCC l = l.length
  | [] => by simp [subCC, countCC]
  | [c] => by simp [subCC, countCC]
  | c1 :: c2 :: rest => by
    by_cases h : c1.isUpper && c2.isLower
    · have ih := subCC_len rest
      simp only [subCC, countCC, h, if_true]
      simp only [List.length_cons]
      omega
    · have ih := subCC_len (c2 :: rest)
      rw [Bool.not_eq_true] at h
      simp only [subCC, countCC, h, Bool.false_eq_true, if_false]
      simp only [List.length_cons] at ih ⊢
      omega

theorem specAdjacentPairs_cons (c1 c2 : Char) (rest : List Char) :
    specAdjacentPairs (c1 :: c2 :: rest) =
      specAdjacentPairs (c2 :: rest) + (if c1.isUpper && c2.isLower then 1 else 0) := by
  simp [specAdjacentPairs, List.countP_cons]

theorem specAdjacentPairs_drop_lower (c2 : Char) (rest : List Char)
    (h : c2.isLower = true) :
    specAdjacentPairs (c2 :: rest) = specAdjacentPairs rest := by
  cases rest with
  | nil => rfl
  | cons c3 rest2 =>
    rw [specAdjacentPairs_cons]
    rw [isUpper_ne_isLower c2 h]
    simp

theorem countCC_eq_pairs : ∀ l : List Char, countCC l = specAdjacentPairs l
  | [] => by simp [countCC, specAdjacentPairs]
  | [c] => by simp [countCC, specAdjacentPairs]
  | c1 :: c2 :: rest => by
    rw [specAdjacentPairs_cons]
    by_cases h : (c1.isUpper && c2.isLower) = true
    · have hlow : c2.isLower = true := by
        simp only [Bool.and_eq_true] at h; exact h.2
      rw [specAdjacentPairs_drop_lower c2 rest hlow]
      simp only [countCC, h, if_true]
      rw [countCC_eq_pairs rest]
    · simp only [countCC, h, if_false]
      rw [countCC_eq_pairs (c2 :: rest)]
      simp [Bool.not_eq_true] at h
      simp [h]

theorem cmp_titles_eq_codeScore (x y : String) :
    cmp_titles x y = codeTitleScore y - codeTitleScore x := by
  have hx := subCC_len x.data
  have hy := subCC_len y.data
  have hx2 := countCC_eq_pairs x.data
  have hy2 := countCC_eq_pairs y.data
  have hlenx : x.length = x.data.length := rfl
  have hleny : y.length = y.data.length := rfl
  simp only [cmp_titles, codeTitleScore, hlenx, hleny]
  rw [← hx2, ← hy2]
  omega

/-- C4 as amended: `cmp_titles` orders title candidates by the score
2 * (count of adjacent upper-then-lower-case letter pairs) + (count of
space characters), higher first, ties keeping the original order.  The
factor 2 comes from scoring the pairs through the length difference of the
`[A-Z][a-z]` substitution.  First conjunct: the comparator computes exactly
the difference of those scores.  Second conjunct: the stable sort on a pair
of candidates puts the higher-scored one first and keeps the original
order on ties. -/
theorem claim4_amended :
    (∀ x y : String, cmp_titles x y = codeTitleScore y - codeTitleScore x) ∧
    (∀ x y : String, sortCmp cmp_titles [x, y] =
      if codeTitleScore x < codeTitleScore y then [y, x] else [x, y]) := by
  refine ⟨cmp_titles_eq_codeScore, fun x y => ?_⟩
  show insertCmp cmp_titles x (insertCmp cmp_titles y []) = _
  show insertCmp cmp_titles x [y] = _
  unfold insertCmp
  rw [cmp_titles_eq_codeScore]
  by_cases h : codeTitleScore x < codeTitleScore y
  · rw [if_neg (by omega), if_pos h]
    simp [insertCmp]
  · rw [if_pos (by omega), if_neg h]

/-! ## C8 amended : the two insertion disciplines -/

theorem foldl_insertCandidate : ∀ (vs acc : List String),
    vs.foldl insertCandidate acc =
      (firstOccs (vs.filter (fun v => !acc.contains v))).reverse ++ acc := by
  intro vs
  induction vs with
  | nil => intro acc; simp [firstOccs]
  | cons v vs ih =>
    intro acc
    rw [List.foldl_cons]
    by_cases hv : v ∈ acc
    · have hins : insertCandidate acc v = acc := by simp [insertCandidate, hv]
      rw [hins, ih]
      have hfl : (v :: vs).filter (fun w => !acc.contains w) =
          vs.filter (fun w => !acc.contains w) := by
        simp [List.filter_cons, hv]
      rw [hfl]
    · have hins : insertCandidate acc v = v :: acc := by simp [insertCandidate, hv]
      rw [hins, ih (v :: acc)]
      have hfl : (v :: vs).filter (fun w => !acc.contains w) =
          v :: vs.filter (fun w => !acc.contains w) := by
        simp [List.filter_cons, hv]
      rw [hfl]
      have hfo : firstOccs (v :: vs.filter (fun w => !acc.contains w)) =
          v :: firstOccs ((vs.filter (fun w => !acc.contains w)).filter (fun w => w != v)) := by
        simp only [firstOccs]
      rw [hfo, List.reverse_cons, List.append_assoc]
      have harg : vs.filter (fun w => !(v :: acc).contains w) =
          (vs.filter (fun w => !acc.contains w)).filter (fun w => w != v) := by
        rw [List.filter_filter]
        apply List.filter_congr
        intro w _
        by_cases hwv : w = v
        · simp [hwv]
        · simp [List.contains_cons, hwv]
      rw [harg]
      rfl

theorem foldl_appendUnique : ∀ (vs acc : List String),
    vs.foldl appendUnique acc =
      acc ++ firstOccs (vs.filter (fun v => !acc.contains v)) := by
  intro vs
  induction vs with
  | nil => intro acc; simp [firstOccs]
  | cons v vs ih =>
    intro acc
    rw [List.foldl_cons]
    by_cases hv : v ∈ acc
    · have hins : appendUnique acc v = acc := by simp [appendUnique, hv]
      rw [hins, ih]
      have hfl : (v :: vs).filter (fun w => !acc.contains w) =
          vs.filter (fun w => !acc.contains w) := by
        simp [List.filter_cons, hv]
      rw [hfl]
    · have hins : appendUnique acc v = acc ++ [v] := by simp [appendUnique, hv]
      rw [hins, ih (acc ++ [v])]
      have hfl : (v :: vs).filter (fun w => !acc.contains w) =
          v :: vs.filter (fun w => !acc.contains w) := by
        simp [List.filter_cons, hv]
      rw [hfl]
      have hfo : firstOccs (v :: vs.filter (fun w => !acc.contains w)) =
          v :: firstOccs ((vs.filter (fun w => !acc.contains w)).filter (fun w => w != v)) := by
        simp only [firstOccs]
      rw [hfo]
      have harg : vs.filter (fun w => !(acc ++ [v]).contains w) =
          (vs.filter (fun w => !acc.contains w)).filter (fun w => w != v) := by
        rw [List.filter_filter]
        apply List.filter_congr
        intro w _
        by_cases hwv : w = v
        · simp [hwv]
        · simp [List.mem_append, hwv]
      rw [harg]
      simp

/-- C8 as amended: every field recorded through `match_remove` (all fields
except the discarded tokens; the title list is additionally rebuilt in
place preserving relative order) inserts a value at the front only when it
is not already present, so the candidate list equals the reverse of the
first-occurrence sequence of the recorded values: an inner-component match
appears ahead of outer-component matches and no value is ever inserted
twice (first conjunct).  The discarded-token list instead appends new
values at the end, so it equals the first-occurrence sequence in encounter
order and an inner-component token appears behind outer ones, also without
duplicates (second conjunct).  The last two conjuncts show both disciplines
on a concrete extraction (inner year `2002` first; inner discarded token
`JunkB` last). -/
theorem claim8_amended :
    (∀ (vs acc : List String),
      vs.foldl insertCandidate acc =
        (firstOccs (vs.filter (fun v => !acc.contains v))).reverse ++ acc) ∧
    (∀ (vs acc : List String),
      vs.foldl appendUnique acc =
        acc ++ firstOccs (vs.filter (fun v => !acc.contains v))) ∧
    (extractMetadata ["Alpha.2001.JunkA"] "Beta.2002.JunkB.avi").year =
      ["2002", "2001"] ∧
    (extractMetadata ["Alpha.2001.JunkA"] "Beta.2002.JunkB.avi").discarded =
      ["JunkA", "JunkB"] :=
  ⟨foldl_insertCandidate, foldl_appendUnique, by rfl, by rfl⟩

/-! ## C9 : directory creation is unique and precedes the moves into it -/

theorem containsMkdirFor_append (d : String) (xs ys : List Op) :
    containsMkdirFor d (xs ++ ys) = (containsMkdirFor d xs || containsMkdirFor d ys) := by
  simp [containsMkdirFor, List.any_append]

theorem containsMvInto_append (d : String) (xs ys : List Op) :
    containsMvInto d (xs ++ ys) = (containsMvInto d xs || containsMvInto d ys) := by
  simp [containsMvInto, List.any_append]

theorem containsMvInto_cons (d : String) (o : Op) (rest : List Op) :
    containsMvInto d (o :: rest) = (isMvInto d o || containsMvInto d rest) := by
  simp [containsMvInto, List.any_cons]

theorem badOrder_append (d : String) (ys : List Op) : ∀ xs : List Op,
    badOrder d (xs ++ ys) =
      ((badOrder d xs || (containsMvInto d xs && containsMkdirFor d ys)) || badOrder d ys)
  | [] => by simp [badOrder, containsMvInto]
  | o :: rest => by
    show ((isMvInto d o && containsMkdirFor d (rest ++ ys)) || badOrder d (rest ++ ys)) =
      ((((isMvInto d o && containsMkdirFor d rest) || badOrder d rest) ||
        ((isMvInto d o || containsMvInto d rest) && containsMkdirFor d ys)) || badOrder d ys)
    rw [containsMkdirFor_append, badOrder_append d ys rest]
    generalize isMvInto d o = b1
    generalize containsMkdirFor d rest = b2
    generalize containsMkdirFor d ys = b3
    generalize badOrder d rest = b4
    generalize containsMvInto d rest = b5
    generalize badOrder d ys = b6
    cases b1 <;> cases b2 <;> cases b3 <;> cases b4 <;> cases b5 <;> cases b6 <;> decide

theorem countP_mkdir_zero (d : String) (ops : List Op)
    (h : containsMkdirFor d ops = false) : ops.countP (isMkdirFor d) = 0 := by
  induction ops with
  | nil => rfl
  | cons o rest ih =>
    have hc : (isMkdirFor d o || containsMkdirFor d rest) = false := by
      simpa [containsMkdirFor, List.any_cons] using h
    rw [Bool.or_eq_false_iff] at hc
    rw [List.countP_cons, ih hc.2, hc.1]
    rfl

theorem badOrder_single_mv (d : String) (srcs : List String) (todir tofile : String) :
    badOrder d [Op.mv srcs todir tofile] = false := by
  simp [badOrder, containsMkdirFor]

theorem badOrder_mkdir_mv (d : String) (todir : String) (srcs : List String)
    (tofile : String) :
    badOrder d [Op.mkdirRec todir, Op.mv srcs todir tofile] = false := by
  simp [badOrder, containsMkdirFor, isMvInto, List.any_cons, List.any_nil]

theorem queueMove_inv (fsEx : String → Bool) (st : PlanState) (srcs : List String)
    (todir tofile : String) (h : MkdirInv fsEx st) :
    MkdirInv fsEx (queueMove fsEx st srcs todir tofile) := by
  unfold queueMove
  by_cases hc : (!st.created.contains todir && !fsEx todir) = true
  · rw [if_pos hc]
    rw [Bool.and_eq_true, Bool.not_eq_true', Bool.not_eq_true'] at hc
    obtain ⟨hc1, hc2⟩ := hc
    dsimp only
    have hops : (st.ops ++ [Op.mkdirRec todir]) ++ [Op.mv srcs todir tofile] =
        st.ops ++ [Op.mkdirRec todir, Op.mv srcs todir tofile] := by simp
    rw [hops]
    intro d
    obtain ⟨h1, h2, h3, h4⟩ := h d
    have hmkOld : d = todir → containsMkdirFor d st.ops = false := by
      intro hd
      by_contra hmk
      rw [Bool.not_eq_false] at hmk
      have hcr := h3 hmk
      rw [hd, hc1] at hcr
      cases hcr
    have hmvOld : d = todir → containsMvInto d st.ops = false := by
      intro hd
      by_contra hmv
      rw [Bool.not_eq_false] at hmv
      rcases h4 hmv (hmkOld hd) with hcr | hfs
      · rw [hd, hc1] at hcr; cases hcr
      · rw [hd, hc2] at hfs; cases hfs
    refine ⟨?_, ?_, ?_, ?_⟩
    · rw [List.countP_append]
      by_cases hd : d = todir
      · rw [countP_mkdir_zero d st.ops (hmkOld hd), hd]
        simp [List.countP_cons, isMkdirFor]
      · have hz : ([Op.mkdirRec todir, Op.mv srcs todir tofile].countP (isMkdirFor d)) = 0 := by
          simp [List.countP_cons, isMkdirFor, Ne.symm hd]
        rw [hz]
        omega
    · rw [badOrder_append, badOrder_mkdir_mv, h2]
      by_cases hd : d = todir
      · rw [hmvOld hd]
        rfl
      · have hz : containsMkdirFor d [Op.mkdirRec todir, Op.mv srcs todir tofile] = false := by
          simp [containsMkdirFor, isMkdirFor, List.any_cons, Ne.symm hd]
        rw [hz]
        simp
    · intro hm
      rw [containsMkdirFor_append, Bool.or_eq_true] at hm
      rcases hm with hm | hm
      · rw [List.contains_cons, h3 hm, Bool.or_true]
      · have hd : todir = d := by
          simpa [containsMkdirFor, isMkdirFor, List.any_cons] using hm
        subst hd
        simp
    · intro hmv hmk
      rw [containsMkdirFor_append, Bool.or_eq_false_iff] at hmk
      obtain ⟨hmk1, hmk2⟩ := hmk
      have hd : todir ≠ d := by
        intro hd
        have : containsMkdirFor d [Op.mkdirRec todir, Op.mv srcs todir tofile] = true := by
          simp [containsMkdirFor, isMkdirFor, List.any_cons, hd]
        rw [this] at hmk2
        cases hmk2
      rw [containsMvInto_append, Bool.or_eq_true] at hmv
      rcases hmv with hmv | hmv
      · rcases h4 hmv hmk1 with hcr | hfs
        · exact Or.inl (by rw [List.contains_cons, hcr, Bool.or_true])
        · exact Or.inr hfs
      · exact absurd (by simpa [containsMvInto, isMvInto, List.any_cons] using hmv) hd
  · rw [if_neg hc]
    dsimp only
    intro d
    obtain ⟨h1, h2, h3, h4⟩ := h d
    refine ⟨?_, ?_, ?_, ?_⟩
    · rw [List.countP_append]
      have hz : ([Op.mv srcs todir tofile].countP (isMkdirFor d)) = 0 := by
        simp [List.countP_cons, isMkdirFor]
      omega
    · rw [badOrder_append, badOrder_single_mv, h2]
      have hz : containsMkdirFor d [Op.mv srcs todir tofile] = false := by
        simp [containsMkdirFor, isMkdirFor]
      rw [hz]
      simp
    · intro hm
      rw [containsMkdirFor_append, Bool.or_eq_true] at hm
      rcases hm with hm | hm
      · exact h3 hm
      · simp [containsMkdirFor, isMkdirFor, List.any_cons] at hm
    · intro hmv hmk
      rw [containsMkdirFor_append, Bool.or_eq_false_iff] at hmk
      obtain ⟨hmk1, hmk2⟩ := hmk
      rw [containsMvInto_append, Bool.or_eq_true] at hmv
      rcases hmv with hmv | hmv
      · exact h4 hmv hmk1
      · have hd : todir = d := by
          simpa [containsMvInto, isMvInto, List.any_cons] using hmv
        rw [← hd]
        cases hcont : st.created.contains todir with
        | true => exact Or.inl rfl
        | false =>
          cases hfs : fsEx todir with
          | true => exact Or.inr rfl
          | false => exact absurd (by rw [hcont, hfs]; rfl) hc

theorem move_inv (fsEx : String → Bool) (st st2 : PlanState) (fromdir : String)
    (fromfile : FromFiles) (todir tofile : String) (all : Bool)
    (h : MkdirInv fsEx st) (hm : move fsEx st fromdir fromfile todir tofile all = .ok st2) :
    MkdirInv fsEx st2 := by
  cases fromfile with
  | one f =>
    simp only [move, Except.ok.injEq] at hm
    rw [← hm]
    exact queueMove_inv fsEx st _ todir tofile h
  | many fs =>
    simp only [move] at hm
    split at hm
    · cases hm
    · simp only [Except.ok.injEq] at hm
      rw [← hm]
      exact queueMove_inv fsEx st _ todir tofile h

theorem runMoves_inv (fsEx : String → Bool) (calls : List MoveCall) :
    ∀ st : PlanState, MkdirInv fsEx st → MkdirInv fsEx (runMoves fsEx st calls) := by
  induction calls with
  | nil => intro st h; exact h
  | cons c cs ih =>
    intro st h
    unfold runMoves
    cases hm : move fsEx st c.fromdir c.fromfile c.todir c.tofile c.all with
    | ok st2 => exact ih st2 (move_inv fsEx st st2 _ _ _ _ _ h hm)
    | error e => exact h

theorem mkdirInv_init (fsEx : String → Bool) : MkdirInv fsEx ⟨[], []⟩ := by
  intro d
  refine ⟨by simp, rfl, ?_, ?_⟩
  · intro h; cases h
  · intro h; cases h

/-- C9.  Over any run of `move` calls from the initial state (`cmds = []`,
`created_paths = set()` of lines 256-257, 323-326) and any filesystem
snapshot: a `mkdir -p` operation for a given destination directory is
queued at most once — the `created_paths` membership test of line 318
suppresses repeats — and no move whose destination is that directory is
ever queued strictly before it (`badOrder d ops = false` states that no
`mv` into `d` precedes a later `mkdir -p d`). -/
theorem claim9_mkdir_once_and_first (fsEx : String → Bool) (calls : List MoveCall)
    (d : String) :
    ((runMoves fsEx ⟨[], []⟩ calls).ops.countP (isMkdirFor d) ≤ 1) ∧
    badOrder d (runMoves fsEx ⟨[], []⟩ calls).ops = false := by
  obtain ⟨h1, h2, _, _⟩ := runMoves_inv fsEx calls ⟨[], []⟩ (mkdirInv_init fsEx) d
  exact ⟨h1, h2⟩

/-! ## C3 amended : import-phase collision avoidance terminates on a free name -/

theorem copyK_succ_inner (k : Nat) (d : String) :
    copyK (k + 1) d = copyK k ("copy_" ++ d) := by
  induction k with
  | zero => rfl
  | succ n ih =>
    show "copy_" ++ copyK (n + 1) d = copyK (n + 1) ("copy_" ++ d)
    rw [ih]
    rfl

theorem copyK_length (k : Nat) (d : String) :
    (copyK k d).length = 5 * k + d.length := by
  induction k with
  | zero => simp [copyK]
  | succ n ih =>
    show ("copy_" ++ copyK n d).length = 5 * (n + 1) + d.length
    rw [String.length_append, ih]
    have h5 : "copy_".length = 5 := rfl
    omega

theorem copyK_succ_not_slash (k : Nat) (d : String) :
    strStartsWith (copyK (k + 1) d) "/" = false := by
  show strStartsWith ("copy_" ++ copyK k d) "/" = false
  have hdata : ("copy_" ++ copyK k d).data = 'c' :: ("opy_" ++ copyK k d).data := by
    rw [String.data_append, String.data_append]
    rfl
  rw [strStartsWith, hdata]
  rfl

/-- The number of characters `pjoin m x` adds in front of `x` when `x` is
not an absolute path. -/
def pjoinPad (m : String) : Nat :=
  if m = "" || strEndsWith m "/" then m.length else m.length + 1

theorem pjoin_len_rel (m x : String) (h : strStartsWith x "/" = false) :
    (pjoin m x).length = pjoinPad m + x.length := by
  unfold pjoin pjoinPad
  rw [h]
  by_cases hm : (m = "" || strEndsWith m "/") = true
  · rw [if_neg (by simp), if_pos hm, if_pos hm, String.length_append]
  · rw [if_neg (by simp), if_neg hm, if_neg hm, String.length_append, String.length_append]
    have h1 : "/".length = 1 := rfl
    omega

theorem pjoin_len_zero_le (m d : String) :
    (pjoin m d).length ≤ pjoinPad m + d.length := by
  unfold pjoin pjoinPad
  by_cases hs : strStartsWith d "/" = true
  · rw [if_pos hs]
    by_cases hm : (m = "" || strEndsWith m "/") = true
    · rw [if_pos hm]; omega
    · rw [if_neg hm]; omega
  · rw [if_neg hs]
    by_cases hm : (m = "" || strEndsWith m "/") = true
    · rw [if_pos hm, if_pos hm, String.length_append]
    · rw [if_neg hm, if_neg hm, String.length_append, String.length_append]
      have h1 : "/".length = 1 := rfl
      omega

theorem pjoin_copyK_len_lt (m d : String) (j k : Nat) (hjk : j < k) :
    (pjoin m (copyK j d)).length < (pjoin m (copyK k d)).length := by
  have hk : 1 ≤ k := by omega
  obtain ⟨k', rfl⟩ : ∃ k', k = k' + 1 := ⟨k - 1, by omega⟩
  have hklen : (pjoin m (copyK (k' + 1) d)).length =
      pjoinPad m + (5 * (k' + 1) + d.length) := by
    rw [pjoin_len_rel m _ (copyK_succ_not_slash k' d), copyK_length]
  rw [hklen]
  cases j with
  | zero =>
    have h0 := pjoin_len_zero_le m d
    have : copyK 0 d = d := rfl
    rw [this]
    omega
  | succ j' =>
    have hjlen : (pjoin m (copyK (j' + 1) d)).length =
        pjoinPad m + (5 * (j' + 1) + d.length) := by
      rw [pjoin_len_rel m _ (copyK_succ_not_slash j' d), copyK_length]
    rw [hjlen]
    omega

theorem candidates_nodup (m d : String) (n : Nat) :
    ((List.range n).map (fun k => pjoin m (copyK k d))).Nodup := by
  refine List.Nodup.map_on ?_ (List.nodup_range n)
  intro j _ k _ hjk
  by_contra hne
  rcases Nat.lt_or_ge j k with hlt | hge
  · exact absurd (congrArg String.length hjk)
      (Nat.ne_of_lt (pjoin_copyK_len_lt m d j k hlt))
  · rcases Nat.lt_or_ge k j with hlt2 | hge2
    · exact absurd (congrArg String.length hjk.symm)
        (Nat.ne_of_lt (pjoin_copyK_len_lt m d k j hlt2))
    · exact hne (by omega)

theorem freeDirname_go (existing : List String) (m : String) :
    ∀ (fuel : Nat) (d : String),
      (((List.range fuel).map (fun k => pjoin m (copyK k d))).countP
        (fun x => existing.contains x)) < fuel →
      existing.contains (pjoin m (freeDirname existing m fuel d)) = false := by
  intro fuel
  induction fuel with
  | zero => intro d h; omega
  | succ n ih =>
    intro d h
    unfold freeDirname
    by_cases hc : existing.contains (pjoin m d) = true
    · rw [if_pos hc]
      apply ih
      rw [List.range_succ_eq_map, List.map_cons, List.map_map] at h
      have hcomp : ((fun k => pjoin m (copyK k d)) ∘ Nat.succ) =
          fun k => pjoin m (copyK k ("copy_" ++ d)) := by
        funext k
        show pjoin m (copyK (k + 1) d) = _
        rw [copyK_succ_inner]
      rw [hcomp] at h
      rw [List.countP_cons] at h
      have hck0 : copyK 0 d = d := rfl
      rw [hck0, hc, if_pos rfl] at h
      omega
    · rw [if_neg hc]
      rw [Bool.not_eq_true] at hc
      exact hc

/-- Over the `has_media` loop: the settled directory name joined below the
media dir is not among the existing paths.  Pigeonhole: the
`existing.length + 1` candidate names are pairwise distinct (their lengths
strictly increase with the number of `copy_` prefixes), so at most
`existing.length` of them can collide and the loop exits on a free one. -/
theorem has_media_dirname_free (existing : List String) (m d : String) :
    existing.contains (pjoin m (has_media_dirname existing m d)) = false := by
  unfold has_media_dirname
  apply freeDirname_go
  have hcount : (((List.range (existing.length + 1)).map
      (fun k => pjoin m (copyK k d))).countP (fun x => existing.contains x)) ≤
      existing.length := by
    rw [List.countP_eq_length_filter]
    have hnd : (((List.range (existing.length + 1)).map
        (fun k => pjoin m (copyK k d))).filter (fun x => existing.contains x)).Nodup :=
      List.Nodup.filter _ (candidates_nodup m d (existing.length + 1))
    have hsub : (((List.range (existing.length + 1)).map
        (fun k => pjoin m (copyK k d))).filter (fun x => existing.contains x)) ⊆
        existing := by
      intro x hx
      have hcx := List.of_mem_filter hx
      simpa using hcx
    exact (List.subperm_of_subset hnd hsub).length_le
  omega

/-- C3 as amended: the sort-phase planner performs no disambiguation — two
files of one unit resolving to the same destination directory and file name
are queued to move to the identical destination path, the second
overwriting the first (conjuncts 2-4 exhibit this on the `planC3Input`
scenario, both moves targeting `/m/Movie/CD1.avi`); automatic
disambiguation exists only in the import phase, where `has_media` prefixes
the moved directory name with `copy_` repeatedly until the path under the
media dir is free of collision with any existing path (first conjunct). -/
theorem claim3_amended :
    (∀ (existing : List String) (m d : String),
      existing.contains (pjoin m (has_media_dirname existing m d)) = false) ∧
    (opsOf (planRoot fsNone "$title/$part.$ext" {} planC3Input)).get? 1 =
      some (Op.mv ["/m/AAA/Movie.CD1.avi"] "/m/Movie" "CD1.avi") ∧
    (opsOf (planRoot fsNone "$title/$part.$ext" {} planC3Input)).get? 2 =
      some (Op.mv ["/m/AAA/Movie CD1.avi"] "/m/Movie" "CD1.avi") ∧
    ("/m/AAA/Movie.CD1.avi" : String) ≠ "/m/AAA/Movie CD1.avi" :=
  ⟨has_media_dirname_free, by rfl, by rfl, by decide⟩

/-! ## Engine soundness lemmas for C6 and C7 -/

theorem ends_cls_mem {p : Char → Bool} {s : List Char} {i j : Nat}
    (h : j ∈ ends (.cls p) s i) :
    j = i + 1 ∧ i < s.length ∧ p (charAt s i) = true := by
  unfold ends at h
  by_cases hc : (decide (i < s.length) && p (charAt s i)) = true
  · rw [if_pos hc] at h
    rw [Bool.and_eq_true, decide_eq_true_eq] at hc
    simp at h
    exact ⟨h, hc.1, hc.2⟩
  · rw [if_neg hc] at h
    cases h

theorem ends_rep_exact {p : Char → Bool} {s : List Char} {j k n : Nat}
    (h : k ∈ ends (.rep p n (some n) true) s j) :
    k = j + n ∧ n ≤ clsRun p s j := by
  unfold ends at h
  dsimp only at h
  by_cases hlt : Nat.min (clsRun p s j) n < n
  · rw [if_pos hlt] at h
    cases h
  · rw [if_neg hlt] at h
    rw [Nat.not_lt] at hlt
    have hrun : n ≤ clsRun p s j := le_trans hlt (Nat.min_le_left _ _)
    have hm : Nat.min (clsRun p s j) n = n :=
      Nat.le_antisymm (Nat.min_le_right _ _) hlt
    rw [hm] at h
    simp at h
    rcases h with ⟨t, ht, hk⟩
    omega

theorem takeWhile_getD {p : Char → Bool} : ∀ (l : List Char) (t : Nat),
    t < (l.takeWhile p).length → p (l.getD t (Char.ofNat 0)) = true
  | [], t, h => by simp [List.takeWhile] at h
  | c :: cs, t, h => by
    by_cases hc : p c = true
    · rw [List.takeWhile_cons, if_pos hc] at h
      cases t with
      | zero => simpa using hc
      | succ t' =>
        rw [List.getD_cons_succ]
        exact takeWhile_getD cs t' (by simpa using h)
    · rw [Bool.not_eq_true] at hc
      rw [List.takeWhile_cons, hc] at h
      simp at h

theorem getD_drop_char : ∀ (i : Nat) (l : List Char) (t : Nat) (d : Char),
    (l.drop i).getD t d = l.getD (i + t) d
  | 0, l, t, d => by simp
  | i' + 1, [], t, d => by simp
  | i' + 1, c :: cs, t, d => by
    show (cs.drop i').getD t d = (c :: cs).getD (i' + 1 + t) d
    rw [show i' + 1 + t = (i' + t) + 1 from by omega, List.getD_cons_succ]
    exact getD_drop_char i' cs t d

theorem clsRun_all {p : Char → Bool} {s : List Char} {i n : Nat}
    (h : n ≤ clsRun p s i) :
    (∀ t, t < n → p (charAt s (i + t)) = true) ∧ (n = 0 ∨ i + n ≤ s.length) := by
  constructor
  · intro t ht
    have h1 : t < ((s.drop i).takeWhile p).length := by
      unfold clsRun at h
      omega
    have h2 := takeWhile_getD (s.drop i) t h1
    rw [getD_drop_char] at h2
    exact h2
  · by_cases hn : n = 0
    · exact Or.inl hn
    · refine Or.inr ?_
      have h2 : (List.takeWhile p (s.drop i)).length ≤ (s.drop i).length :=
        List.Sublist.length_le (List.takeWhile_sublist p)
      rw [List.length_drop] at h2
      unfold clsRun at h
      omega

theorem firstSome_eq_some {α β : Type} : ∀ {l : List α} {f : α → Option β} {b : β},
    firstSome l f = some b → ∃ a, a ∈ l ∧ f a = some b := by
  intro l
  induction l with
  | nil => intro f b h; cases h
  | cons a as ih =>
    intro f b h
    cases hf : f a with
    | some c =>
      have : some c = some b := by
        rw [← h]
        simp [firstSome, hf]
      exact ⟨a, by simp, by rw [hf, this]⟩
    | none =>
      have h2 : firstSome as f = some b := by
        rw [← h]
        simp [firstSome, hf]
      obtain ⟨x, hx, hfx⟩ := ih h2
      exact ⟨x, by simp [hx], hfx⟩

theorem mem_of_headOpt {α : Type} {l : List α} {a : α} (h : l.head? = some a) : a ∈ l := by
  cases l with
  | nil => cases h
  | cons x xs =>
    have : x = a := by simpa using h
    rw [← this]
    exact List.mem_cons_self _ _

theorem ends_seq_left_ne_nil {a b : RE} {s : List Char} {i : Nat}
    (h : ends (.seq a b) s i ≠ []) : ends a s i ≠ [] := by
  intro hA
  apply h
  show (ends a s i).foldr (fun j acc => ends b s j ++ acc) [] = []
  rw [hA]
  rfl

theorem ends_rep_min_one {p : Char → Bool} {s : List Char} {i : Nat}
    (h : ends (.rep p 1 none true) s i ≠ []) :
    i < s.length ∧ p (charAt s i) = true := by
  have hrun : 1 ≤ clsRun p s i := by
    by_contra hr
    apply h
    unfold ends
    dsimp only
    rw [if_pos (by omega)]
  obtain ⟨hall, hb⟩ := clsRun_all hrun
  have hp := hall 0 (by omega)
  rw [Nat.add_zero] at hp
  rcases hb with hb | hb
  · omega
  · exact ⟨by omega, hp⟩

/-! ## C6 amended : what the year rule records and excises -/

theorem matchAt_year_sound (s : List Char) (i : Nat) (r : MatchInfo)
    (h : matchAt match_year s i = some r) :
    r.ms = i ∧ r.vs = i + 1 ∧ r.ve = i + 5 ∧ isSepCh (charAt s i) = true ∧
    i + 5 ≤ s.length ∧
    (∀ t, t < 4 → isDigitCh (charAt s (i + 1 + t)) = true) ∧
    (r.ve = s.length ∨ isSepCh (charAt s r.ve) = true) := by
  unfold matchAt match_year at h
  obtain ⟨j, hjmem, hj⟩ := firstSome_eq_some h
  obtain ⟨hj1, hj2, hj3⟩ := ends_cls_mem hjmem
  obtain ⟨k, hkmem, hk⟩ := firstSome_eq_some hj
  obtain ⟨hk1, hk2⟩ := ends_rep_exact hkmem
  rw [Option.map_eq_some'] at hk
  obtain ⟨l, hl, hr⟩ := hk
  have hlmem := mem_of_headOpt hl
  obtain ⟨hdig, hbound⟩ := clsRun_all hk2
  subst hj1
  subst hk1
  subst hr
  refine ⟨rfl, rfl, by show i + 1 + 4 = i + 5; omega, hj3, ?_, ?_, ?_⟩
  · rcases hbound with hb | hb
    · omega
    · omega
  · intro t ht
    exact hdig t ht
  · show i + 1 + 4 = s.length ∨ isSepCh (charAt s (i + 1 + 4)) = true
    unfold ends at hlmem
    rw [List.mem_append] at hlmem
    rcases hlmem with hE | hC
    · obtain ⟨hl1, hl2⟩ := ends_eol_cases s (i + 1 + 4) l hE
      rcases hl2 with hl2 | ⟨hl2, hl3⟩
      · exact Or.inl hl2
      · refine Or.inr ?_
        rw [hl3]
        rfl
    · obtain ⟨_, _, hsep⟩ := ends_cls_mem hC
      exact Or.inr hsep

theorem findFrom_mem_matchAt (P : Pat) (s : List Char) : ∀ (fuel i : Nat)
    (m : MatchInfo), m ∈ findFrom P s fuel i → ∃ j, matchAt P s j = some m := by
  intro fuel
  induction fuel with
  | zero => intro i m h; cases h
  | succ n ih =>
    intro i m h
    unfold findFrom at h
    by_cases hgt : i > s.length
    · rw [if_pos hgt] at h; cases h
    · rw [if_neg hgt] at h
      cases hm : matchAt P s i with
      | some m2 =>
        rw [hm] at h
        rcases List.mem_cons.mp h with h | h
        · exact ⟨i, by rw [hm, h]⟩
        · exact ih _ m h
      | none =>
        rw [hm] at h
        exact ih _ m h

theorem finditer_mem_matchAt {P : Pat} {s : List Char} {m : MatchInfo}
    (h : m ∈ finditer P s) : ∃ j, matchAt P s j = some m :=
  findFrom_mem_matchAt P s _ 0 m h

theorem match_remove_first (P : Pat) (s : List Char) (lst : List String)
    (repl : List Char) (m : MatchInfo) (rest : List MatchInfo)
    (hf : finditer P s = m :: rest) (hval : m.vs < m.ve) :
    match_remove P s lst true 1 repl =
      (s.take m.vs ++ repl ++ s.drop m.ve,
       insertCandidate lst (String.mk (slice s m.vs m.ve))) := by
  unfold match_remove
  rw [hf]
  rw [List.filter_cons, if_pos (by simpa using hval)]
  rfl

/-- C6 as amended.  The first conjunct (pattern soundness): every match of
the year rule captures exactly 4 digit characters preceded by a separator
character and followed by a separator or the end of the string.  The second
conjunct (the extraction step): when the year rule finds a match, the
string handed to the following rules is the input with exactly the matched
span replaced by the sentinel `#`, and the captured 4-digit substring is
recorded (at the front, if new) — so that matched occurrence itself cannot
be captured into a title candidate; the top year candidate is the first
bounded year of the innermost component, not every bounded year, and a
different occurrence of the same digits may still reach the title (see the
counterexample).  The third conjunct shows the amended behaviour on a
well-behaved name: the year is recorded, the matched occurrence is excised,
and the title is free of it. -/
theorem claim6_amended :
    (∀ (s : List Char) (i : Nat) (r : MatchInfo), matchAt match_year s i = some r →
      r.ms = i ∧ r.vs = i + 1 ∧ r.ve = i + 5 ∧ isSepCh (charAt s i) = true ∧
      i + 5 ≤ s.length ∧
      (∀ t, t < 4 → isDigitCh (charAt s (i + 1 + t)) = true) ∧
      (r.ve = s.length ∨ isSepCh (charAt s r.ve) = true)) ∧
    (∀ (s : List Char) (lst : List String) (m : MatchInfo) (rest : List MatchInfo),
      finditer match_year s = m :: rest →
      match_remove match_year s lst true 1 sentinelR =
        (s.take m.vs ++ ['#'] ++ s.drop m.ve,
         insertCandidate lst (String.mk (slice s m.vs m.ve)))) ∧
    ((extractMetadata [] "Movie.2007.Great.avi").year = ["2007"] ∧
     (extractMetadata [] "Movie.2007.Great.avi").title = ["Movie"] ∧
     containsL "Movie".data "2007".data = false) := by
  refine ⟨matchAt_year_sound, ?_, by rfl, by rfl, by rfl⟩
  intro s lst m rest hf
  have hm : ∃ j, matchAt match_year s j = some m :=
    finditer_mem_matchAt (by rw [hf]; exact List.mem_cons_self _ _)
  obtain ⟨j, hj⟩ := hm
  obtain ⟨_, h2, h3, _⟩ := matchAt_year_sound s j m hj
  exact match_remove_first match_year s lst sentinelR m rest hf (by omega)

/-- C6 amended witness: the theorem applied at `"a.1984.b"`, position 1. -/
theorem claim6_amended_witness :
    isSepCh (charAt "a.1984.b".data 1) = true ∧
    match_remove match_year "a.1984.b".data [] true 1 sentinelR =
      ("a.1984.b".data.take 2 ++ ['#'] ++ "a.1984.b".data.drop 6,
       insertCandidate [] (String.mk (slice "a.1984.b".data 2 6))) :=
  ⟨(claim6_amended.1 "a.1984.b".data 1 ⟨1, 2, 6, 7⟩ (by rfl)).2.2.2.1,
   claim6_amended.2.1 "a.1984.b".data [] ⟨1, 2, 6, 7⟩ [] (by rfl)⟩

/-! ## C7 amended : the stripping pattern only fires after a separator -/

theorem matchAt_unfilled_sound (s : List Char) (i : Nat) (r : MatchInfo)
    (h : matchAt match_unfilled_format_keys s i = some r) :
    i < s.length ∧ (charAt s i = '-' ∨ charAt s i = '.' ∨ charAt s i = '_' ∨
      charAt s i = ' ') := by
  unfold matchAt match_unfilled_format_keys at h
  obtain ⟨j, hjmem, hj⟩ := firstSome_eq_some h
  have hjeq : j = i := by
    simpa [ends] using hjmem
  subst hjeq
  have hne : ends (seqL [.rep (fun c => c = '-' || c = '.' || c = '_' || c = ' ') 1 none true,
      .rep (fun c => c = Char.ofNat 123 || c = '(' || c = '[') 0 (some 1) true,
      .rep (· = ' ') 0 (some 1) true,
      .cls (· = '$'), .cls (· = '$'),
      .rep (· = ' ') 0 (some 1) true,
      .rep (fun c => c = ')' || c = Char.ofNat 125 || c = ']') 0 (some 1) true]) s j ≠ [] := by
    intro hnil
    rw [hnil] at hj
    cases hj
  have hne2 := ends_seq_left_ne_nil hne
  obtain ⟨hlt, hp⟩ := ends_rep_min_one hne2
  refine ⟨hlt, ?_⟩
  rcases Bool.or_eq_true _ _ |>.mp hp with h1 | h1
  · rcases Bool.or_eq_true _ _ |>.mp h1 with h2 | h2
    · rcases Bool.or_eq_true _ _ |>.mp h2 with h3 | h3
      · exact Or.inl (by simpa using h3)
      · exact Or.inr (Or.inl (by simpa using h3))
    · exact Or.inr (Or.inr (Or.inl (by simpa using h2)))
  · exact Or.inr (Or.inr (Or.inr (by simpa using h1)))

/-- C7 as amended.  The sentinel-stripping pattern
`[-._ ]+[{([]? ?\$\$ ?[)}\]]?` can only match where the character is one of
`-`, `.`, `_` or space (first conjunct), so an unfilled placeholder is
stripped, together with its adjoining bracket decoration, exactly when the
sentinel group is preceded by such a separator run; a sentinel preceded by
anything else (e.g. directly by `/` or `(`) survives into the rendered
destination (see the counterexample).  The remaining conjuncts: for the
default template `$filetype/$title ($year)/$filename`, whose `($year)`
follows a space, a missing year leaves no placeholder syntax and none of
its decoration in the rendered destination. -/
theorem claim7_amended :
    (∀ (s : List Char) (i : Nat) (r : MatchInfo),
      matchAt match_unfilled_format_keys s i = some r →
      i < s.length ∧ (charAt s i = '-' ∨ charAt s i = '.' ∨ charAt s i = '_' ∨
        charAt s i = ' ')) ∧
    analyze_video_file "$filetype/$title ($year)/$filename" ["AAA"] "MyMovie.avi" =
      some ("Divx/MyMovie", "MyMovie.avi") ∧
    containsL "Divx/MyMovie".data "$".data = false ∧
    containsL "MyMovie.avi".data "$".data = false ∧
    containsL "Divx/MyMovie".data "(".data = false ∧
    containsL "MyMovie.avi".data "(".data = false :=
  ⟨matchAt_unfilled_sound, by rfl, by rfl, by rfl, by rfl, by rfl⟩

/-- C7 amended witness: the theorem applied to the match of the stripping
pattern inside `"a ($$)b"`. -/
theorem claim7_amended_witness :
    1 < "a ($$)b".data.length ∧ (charAt "a ($$)b".data 1 = '-' ∨
      charAt "a ($$)b".data 1 = '.' ∨ charAt "a ($$)b".data 1 = '_' ∨
      charAt "a ($$)b".data 1 = ' ') :=
  claim7_amended.1 "a ($$)b".data 1 ⟨1, 1, 6, 6⟩ (by rfl)

end MediaSorter
